import Mathlib

/-!
Verification of the event-resolution and stream-discovery logic of
`webcast.py`.  Strings are modelled as lists of Unicode code points
(`List Nat`); the helpers below embed the Python primitives used by the
source (`str.strip`, `str.split`, `str.title`, `str.splitlines`,
`re`-based scanning and the team-slug tables) and the functions of the
source are translated one by one on top of them.
-/

/-- PyStr models a Python string as its list of Unicode code points. -/
abbrev PyStr := List Nat

/-- pystr converts a Lean string literal into its code-point model. -/
def pystr (s : String) : PyStr := s.data.map Char.toNat

/-- isWs models Python's `str.isspace` / regex `\s` class (the code points
Python treats as whitespace that can occur in scraped text). -/
def isWs (c : Nat) : Bool :=
  c = 32 || c = 9 || c = 10 || c = 11 || c = 12 || c = 13 ||
  c = 28 || c = 29 || c = 30 || c = 133 || c = 160 || c = 8232 || c = 8233

/-- isLineBreak models the line boundaries recognised by `str.splitlines`. -/
def isLineBreak (c : Nat) : Bool :=
  c = 10 || c = 11 || c = 12 || c = 13 ||
  c = 28 || c = 29 || c = 30 || c = 133 || c = 8232 || c = 8233

/-- isDigitC models the regex `\d` class (ASCII digits). -/
def isDigitC (c : Nat) : Bool := 48 ≤ c && c ≤ 57

/-- isUpperC tests for an ASCII uppercase letter. -/
def isUpperC (c : Nat) : Bool := 65 ≤ c && c ≤ 90

/-- isLowerC tests for an ASCII lowercase letter (regex `[a-z]`). -/
def isLowerC (c : Nat) : Bool := 97 ≤ c && c ≤ 122

/-- isAlphaC tests for an ASCII letter (the cased characters of the model). -/
def isAlphaC (c : Nat) : Bool := isUpperC c || isLowerC c

/-- isWordC models the regex `\w` class used by `\b` word boundaries. -/
def isWordC (c : Nat) : Bool := isAlphaC c || isDigitC c || c = 95

/-- toLowerC models `str.lower` character-wise. -/
def toLowerC (c : Nat) : Nat := if isUpperC c then c + 32 else c

/-- toUpperC models `str.upper` character-wise. -/
def toUpperC (c : Nat) : Nat := if isLowerC c then c - 32 else c

/-- lowerS lowers a whole string, modelling `str.lower`. -/
def lowerS (s : PyStr) : PyStr := s.map toLowerC

/-- lstrip removes leading whitespace, as in `str.strip` (left half). -/
def lstrip (s : PyStr) : PyStr := s.dropWhile isWs

/-- rstrip removes trailing whitespace, as in `str.strip` (right half). -/
def rstrip (s : PyStr) : PyStr := (s.reverse.dropWhile isWs).reverse

/-- stripWs models Python's `str.strip()` with no arguments. -/
def stripWs (s : PyStr) : PyStr := rstrip (lstrip s)

/-- pySplitGo is the worker of `pySplit`; the accumulator holds the
current in-progress word, reversed. -/
def pySplitGo : Option PyStr → PyStr → List PyStr
  | none, [] => []
  | some w, [] => [w.reverse]
  | none, c :: rest => if isWs c then pySplitGo none rest else pySplitGo (some [c]) rest
  | some w, c :: rest =>
    if isWs c then w.reverse :: pySplitGo none rest else pySplitGo (some (c :: w)) rest

/-- pySplit models Python's `str.split()` with no arguments: split on runs
of whitespace, discarding empty fields. -/
def pySplit (s : PyStr) : List PyStr := pySplitGo none s

/-- joinWith models `sep.join(parts)`. -/
def joinWith (sep : PyStr) : List PyStr → PyStr
  | [] => []
  | [x] => x
  | x :: y :: rest => x ++ sep ++ joinWith sep (y :: rest)

/-- splitlinesJoin models `" ".join(s.splitlines())` up to trailing
whitespace (every line boundary, `\r\n` counting as one, becomes a single
space; a trailing boundary leaves a trailing space that the caller's
`strip()` removes). -/
def splitlinesJoin : PyStr → PyStr
  | [] => []
  | [c] => [if isLineBreak c then 32 else c]
  | c :: d :: rest =>
    if c = 13 ∧ d = 10 then 32 :: splitlinesJoin rest
    else (if isLineBreak c then 32 else c) :: splitlinesJoin (d :: rest)

/-- titleGo is the worker of `str.title`: the flag records whether the
previous character was cased (an ASCII letter in this model). -/
def titleGo : Bool → PyStr → PyStr
  | _, [] => []
  | prevAl, c :: rest =>
    if isAlphaC c then
      (if prevAl then toLowerC c else toUpperC c) :: titleGo true rest
    else c :: titleGo false rest

/-- pyTitle models Python's `str.title()`. -/
def pyTitle (s : PyStr) : PyStr := titleGo false s

/-- startsWithL tests whether the second list starts with the first. -/
def startsWithL : PyStr → PyStr → Bool
  | [], _ => true
  | _ :: _, [] => false
  | a :: p, b :: s => a == b && startsWithL p s

/-- containsSub models Python's `key in text` substring test. -/
def containsSub : PyStr → PyStr → Bool
  | [], pat => pat.isEmpty
  | c :: t, pat => startsWithL pat (c :: t) || containsSub t pat

example : pystr "ab cd" = [97, 98, 32, 99, 100] := by decide
example : pySplit (pystr "  ab  cd ") = [pystr "ab", pystr "cd"] := by decide
example : joinWith [32] [pystr "ab", pystr "cd"] = pystr "ab cd" := by decide
example : pyTitle (pystr "49ers at o'hare") = pystr "49Ers At O'Hare" := by decide
example : stripWs (pystr " x y ") = pystr "x y" := by decide
example : splitlinesJoin (pystr "a\r\nb\nc") = pystr "a b c" := by decide
example : containsSub (pystr "ab76ers x") (pystr "76ers") = true := by decide

/-- wsNorm models `re.sub(r"\s+", " ", txt)` on an already stripped
string (whitespace runs collapse to single spaces). -/
def wsNorm (s : PyStr) : PyStr := joinWith [32] (pySplit s)

/-- isAlnumLow tests for `[a-z0-9]`, the characters `_slug` keeps. -/
def isAlnumLow (c : Nat) : Bool := isLowerC c || isDigitC c

/-- Model of `_slug`: `re.sub(r"[^a-z0-9]", "", s.lower())`. -/
def _slug (s : PyStr) : PyStr := (lowerS s).filter isAlnumLow

/-- dget models `dict.get` on an association-list rendering of a Python
dict (insertion order preserved). -/
def dget (m : List (PyStr × PyStr)) (k : PyStr) : Option PyStr :=
  (m.find? (fun p => p.1 == k)).map (fun p => p.2)

/-- Model of the `NFL_TEAM_SLUGS` table. -/
def NFL_TEAM_SLUGS : List (PyStr × PyStr) :=
  [ (pystr "arizona cardinals", pystr "arizonacardinals"),
    (pystr "atlanta falcons", pystr "atlantafalcons"),
    (pystr "baltimore ravens", pystr "baltimoreravens"),
    (pystr "buffalo bills", pystr "buffalobills"),
    (pystr "carolina panthers", pystr "carolinapanthers"),
    (pystr "chicago bears", pystr "chicagobears"),
    (pystr "cincinnati bengals", pystr "cincinnatibengals"),
    (pystr "cleveland browns", pystr "clevelandbrowns"),
    (pystr "dallas cowboys", pystr "dallascowboys"),
    (pystr "denver broncos", pystr "denverbroncos"),
    (pystr "detroit lions", pystr "detroitlions"),
    (pystr "green bay packers", pystr "greenbaypackers"),
    (pystr "houston texans", pystr "houstontexans"),
    (pystr "indianapolis colts", pystr "indianapoliscolts"),
    (pystr "jacksonville jaguars", pystr "jacksonvillejaguars"),
    (pystr "kansas city chiefs", pystr "kansascitychiefs"),
    (pystr "las vegas raiders", pystr "lasvegasraiders"),
    (pystr "los angeles chargers", pystr "losangeleschargers"),
    (pystr "los angeles rams", pystr "losangelesrams"),
    (pystr "miami dolphins", pystr "miamidolphins"),
    (pystr "minnesota vikings", pystr "minnesotavikings"),
    (pystr "new england patriots", pystr "newenglandpatriots"),
    (pystr "new orleans saints", pystr "neworleanssaints"),
    (pystr "new york giants", pystr "newyorkgiants"),
    (pystr "new york jets", pystr "newyorkjets"),
    (pystr "philadelphia eagles", pystr "philadelphiaeagles"),
    (pystr "pittsburgh steelers", pystr "pittsburghsteelers"),
    (pystr "san francisco 49ers", pystr "sanfrancisco49ers"),
    (pystr "seattle seahawks", pystr "seattleseahawks"),
    (pystr "tampa bay buccaneers", pystr "tampabaybuccaneers"),
    (pystr "tennessee titans", pystr "tennesseetitans"),
    (pystr "washington commanders", pystr "washingtoncommanders") ]

/-- Model of the `NFL_NICK_SLUGS` table. -/
def NFL_NICK_SLUGS : List (PyStr × PyStr) :=
  [ (pystr "cardinals", pystr "arizonacardinals"), (pystr "falcons", pystr "atlantafalcons"),
    (pystr "ravens", pystr "baltimoreravens"), (pystr "bills", pystr "buffalobills"),
    (pystr "panthers", pystr "carolinapanthers"), (pystr "bears", pystr "chicagobears"),
    (pystr "bengals", pystr "cincinnatibengals"), (pystr "browns", pystr "clevelandbrowns"),
    (pystr "cowboys", pystr "dallascowboys"), (pystr "broncos", pystr "denverbroncos"),
    (pystr "lions", pystr "detroitlions"), (pystr "packers", pystr "greenbaypackers"),
    (pystr "texans", pystr "houstontexans"), (pystr "colts", pystr "indianapoliscolts"),
    (pystr "jaguars", pystr "jacksonvillejaguars"), (pystr "chiefs", pystr "kansascitychiefs"),
    (pystr "raiders", pystr "lasvegasraiders"), (pystr "chargers", pystr "losangeleschargers"),
    (pystr "rams", pystr "losangelesrams"), (pystr "dolphins", pystr "miamidolphins"),
    (pystr "vikings", pystr "minnesotavikings"), (pystr "patriots", pystr "newenglandpatriots"),
    (pystr "saints", pystr "neworleanssaints"), (pystr "giants", pystr "newyorkgiants"),
    (pystr "jets", pystr "newyorkjets"), (pystr "eagles", pystr "philadelphiaeagles"),
    (pystr "steelers", pystr "pittsburghsteelers"), (pystr "49ers", pystr "sanfrancisco49ers"),
    (pystr "niners", pystr "sanfrancisco49ers"), (pystr "seahawks", pystr "seattleseahawks"),
    (pystr "buccaneers", pystr "tampabaybuccaneers"), (pystr "bucs", pystr "tampabaybuccaneers"),
    (pystr "titans", pystr "tennesseetitans"), (pystr "commanders", pystr "washingtoncommanders") ]

/-- Model of the `NHL_TEAM_SLUGS` table. -/
def NHL_TEAM_SLUGS : List (PyStr × PyStr) :=
  [ (pystr "anaheim ducks", pystr "anaheimducks"), (pystr "arizona coyotes", pystr "arizonacoyotes"),
    (pystr "boston bruins", pystr "bostonbruins"), (pystr "buffalo sabres", pystr "buffalosabres"),
    (pystr "calgary flames", pystr "calgaryflames"), (pystr "carolina hurricanes", pystr "carolinahurricanes"),
    (pystr "chicago blackhawks", pystr "chicagoblackhawks"), (pystr "colorado avalanche", pystr "coloradoavalanche"),
    (pystr "columbus blue jackets", pystr "columbusbluejackets"), (pystr "dallas stars", pystr "dallasstars"),
    (pystr "detroit red wings", pystr "detroitredwings"), (pystr "edmonton oilers", pystr "edmontonoilers"),
    (pystr "florida panthers", pystr "floridapanthers"), (pystr "los angeles kings", pystr "losangeleskings"),
    (pystr "minnesota wild", pystr "minnesotawild"), (pystr "montreal canadiens", pystr "montrealcanadiens"),
    (pystr "nashville predators", pystr "nashvillepredators"), (pystr "new jersey devils", pystr "newjerseydevils"),
    (pystr "new york islanders", pystr "newyorkislanders"), (pystr "new york rangers", pystr "newyorkrangers"),
    (pystr "ottawa senators", pystr "ottawasenators"), (pystr "philadelphia flyers", pystr "philadelphiaflyers"),
    (pystr "pittsburgh penguins", pystr "pittsburghpenguins"), (pystr "san jose sharks", pystr "sanjosesharks"),
    (pystr "seattle kraken", pystr "seattlekraken"), (pystr "st. louis blues", pystr "stlouisblues"),
    (pystr "tampa bay lightning", pystr "tampabaylightning"), (pystr "toronto maple leafs", pystr "torontomapleleafs"),
    (pystr "vancouver canucks", pystr "vancouvercanucks"), (pystr "vegas golden knights", pystr "vegasgoldenknights"),
    (pystr "washington capitals", pystr "washingtoncapitals"), (pystr "winnipeg jets", pystr "winnipegjets") ]

/-- Model of the `NHL_NICK_SLUGS` table. -/
def NHL_NICK_SLUGS : List (PyStr × PyStr) :=
  [ (pystr "ducks", pystr "anaheimducks"), (pystr "coyotes", pystr "arizonacoyotes"),
    (pystr "bruins", pystr "bostonbruins"), (pystr "sabres", pystr "buffalosabres"),
    (pystr "flames", pystr "calgaryflames"), (pystr "hurricanes", pystr "carolinahurricanes"),
    (pystr "blackhawks", pystr "chicagoblackhawks"), (pystr "avalanche", pystr "coloradoavalanche"),
    (pystr "bluejackets", pystr "columbusbluejackets"), (pystr "jackets", pystr "columbusbluejackets"),
    (pystr "stars", pystr "dallasstars"), (pystr "redwings", pystr "detroitredwings"),
    (pystr "wings", pystr "detroitredwings"),
    (pystr "oilers", pystr "edmontonoilers"), (pystr "panthers", pystr "floridapanthers"),
    (pystr "kings", pystr "losangeleskings"), (pystr "wild", pystr "minnesotawild"),
    (pystr "canadiens", pystr "montrealcanadiens"), (pystr "predators", pystr "nashvillepredators"),
    (pystr "devils", pystr "newjerseydevils"), (pystr "islanders", pystr "newyorkislanders"),
    (pystr "rangers", pystr "newyorkrangers"), (pystr "senators", pystr "ottawasenators"),
    (pystr "flyers", pystr "philadelphiaflyers"), (pystr "penguins", pystr "pittsburghpenguins"),
    (pystr "sharks", pystr "sanjosesharks"), (pystr "kraken", pystr "seattlekraken"),
    (pystr "blues", pystr "stlouisblues"), (pystr "lightning", pystr "tampabaylightning"),
    (pystr "mapleleafs", pystr "torontomapleleafs"), (pystr "leafs", pystr "torontomapleleafs"),
    (pystr "canucks", pystr "vancouvercanucks"), (pystr "goldenknights", pystr "vegasgoldenknights"),
    (pystr "knights", pystr "vegasgoldenknights"),
    (pystr "capitals", pystr "washingtoncapitals"), (pystr "caps", pystr "washingtoncapitals"),
    (pystr "jets", pystr "winnipegjets") ]

/-- Model of the `NBA_NICK_TO_CODE` table. -/
def NBA_NICK_TO_CODE : List (PyStr × PyStr) :=
  [ (pystr "hawks", pystr "atlantahawks"), (pystr "celtics", pystr "bostonceltics"),
    (pystr "nets", pystr "brooklynnets"), (pystr "hornets", pystr "charlottehornets"),
    (pystr "bulls", pystr "chicagobulls"), (pystr "cavaliers", pystr "clevelandcavaliers"),
    (pystr "mavericks", pystr "dallasmavericks"), (pystr "nuggets", pystr "denvernuggets"),
    (pystr "pistons", pystr "detroitpistons"), (pystr "warriors", pystr "goldenstatewarriors"),
    (pystr "rockets", pystr "houstonrockets"), (pystr "pacers", pystr "indianapacers"),
    (pystr "clippers", pystr "losangelesclippers"), (pystr "lakers", pystr "losangeleslakers"),
    (pystr "grizzlies", pystr "memphisgrizzlies"), (pystr "heat", pystr "miamiheat"),
    (pystr "bucks", pystr "milwaukeebucks"), (pystr "timberwolves", pystr "minnesotatimberwolves"),
    (pystr "pelicans", pystr "neworleanspelicans"), (pystr "knicks", pystr "newyorkknicks"),
    (pystr "thunder", pystr "oklahomacitythunder"), (pystr "magic", pystr "orlandomagic"),
    (pystr "sixers", pystr "philadelphiasixers"), (pystr "suns", pystr "phoenixsuns"),
    (pystr "trailblazers", pystr "portlandtrailblazers"), (pystr "kings", pystr "sacramentokings"),
    (pystr "spurs", pystr "sanantoniospurs"), (pystr "raptors", pystr "torontoraptors"),
    (pystr "jazz", pystr "utahjazz"), (pystr "wizards", pystr "washingtonwizards") ]

/-- Model of the `TWO_WORD_NICKNAMES` table. -/
def TWO_WORD_NICKNAMES : List (PyStr × PyStr) :=
  [ (pystr "red sox", pystr "redsox"), (pystr "white sox", pystr "whitesox"),
    (pystr "blue jays", pystr "bluejays"), (pystr "trail blazers", pystr "trailblazers") ]

/-- Model of the `ALT_NICK_MAP` table. -/
def ALT_NICK_MAP : List (PyStr × PyStr) :=
  [ (pystr "76ers", pystr "sixers"), (pystr "seventy sixers", pystr "sixers") ]

/-- appendIfNew models `if m and m not in out: out.append(m)` (table values
are never empty, so truthiness is just `some`). -/
def appendIfNew (out : List PyStr) (m : Option PyStr) : List PyStr :=
  match m with
  | some v => if out.contains v then out else out ++ [v]
  | none => out

/-- lastParts models `parts[-1]` slugified: `_slug(parts[-1]) if parts else ""`. -/
def lastParts (parts : List PyStr) : PyStr :=
  match parts.getLast? with
  | some w => _slug w
  | none => []

/-- twoLastParts models `_slug(" ".join(parts[-2:])) if len(parts) >= 2 else ""`. -/
def twoLastParts (parts : List PyStr) : PyStr :=
  if 2 ≤ parts.length then _slug (joinWith [32] (parts.drop (parts.length - 2))) else []

/-- tableCands is the part of `general_candidates` before the raw
slugified fallback: the full-name table hits followed by the de-duplicated
nickname table hits. -/
def tableCands (base_norm : PyStr) : List PyStr :=
  let out0 :=
    (match dget NFL_TEAM_SLUGS base_norm with | some m => [m] | none => []) ++
    (match dget NHL_TEAM_SLUGS base_norm with | some m => [m] | none => [])
  let parts := pySplit base_norm
  let last := lastParts parts
  let two_last := twoLastParts parts
  appendIfNew (appendIfNew (appendIfNew (appendIfNew out0
    (dget NFL_NICK_SLUGS two_last)) (dget NFL_NICK_SLUGS last))
    (dget NHL_NICK_SLUGS two_last)) (dget NHL_NICK_SLUGS last)

/-- Model of the nested `general_candidates` of `resolve_team_slug`
(full-name mode candidate list). -/
def general_candidates (txt0 : PyStr) : List PyStr :=
  let txt := lowerS (stripWs txt0)
  let base_norm := wsNorm txt
  let out1 := tableCands base_norm
  let joined := _slug base_norm
  if joined ≠ [] ∧ ¬ out1.contains joined then out1 ++ [joined] else out1

/-- dedupNonempty models the final loop of `_nickname_only_candidates`:
keep first occurrences of non-empty candidates in order. -/
def dedupNonempty (l : List PyStr) : List PyStr :=
  l.foldl (fun acc c => if c ≠ [] ∧ ¬ acc.contains c then acc ++ [c] else acc) []

/-- Model of `_nickname_only_candidates`. -/
def _nickname_only_candidates (team_text : PyStr) : List PyStr :=
  let txt := lowerS (stripWs team_text)
  if txt = [] then []
  else
    let parts := pySplit (wsNorm txt)
    let last_two_phrase :=
      if 2 ≤ parts.length then joinWith [32] (parts.drop (parts.length - 2)) else []
    let last_two := (dget TWO_WORD_NICKNAMES last_two_phrase).getD []
    let last := parts.getLast?.getD []
    let cands :=
      (if last_two ≠ [] then [_slug last_two] else []) ++
      (if last ≠ [] then [_slug last] else [])
    let cands :=
      if ALT_NICK_MAP.any (fun p => containsSub txt p.1) then
        cands ++ (ALT_NICK_MAP.filter (fun p => containsSub txt p.1)).map (fun p => _slug p.2)
      else cands
    dedupNonempty cands

/-- Model of `_expand_nba_candidates`. -/
def _expand_nba_candidates (nick_cands : List PyStr) : List PyStr :=
  nick_cands.foldl (fun out n =>
    let out1 :=
      match dget NBA_NICK_TO_CODE n with
      | some code =>
        let new_slug := pystr "nba_" ++ code
        if out.contains new_slug then out else out ++ [new_slug]
      | none => out
    if out1.contains n then out1 else out1 ++ [n]) []

/-- home_general_candidates transcribes the nested `general_candidates`
of `_home_match_candidates`; the source duplicates the resolver's helper
verbatim, and the model mirrors that duplication. -/
def home_general_candidates (txt0 : PyStr) : List PyStr :=
  let txt := lowerS (stripWs txt0)
  let base_norm := wsNorm txt
  let out1 := tableCands base_norm
  let joined := _slug base_norm
  if joined ≠ [] ∧ ¬ out1.contains joined then out1 ++ [joined] else out1

/-- Model of `_home_match_candidates` (a Python set; only membership is
ever used, so the model keeps the underlying list). -/
def _home_match_candidates (home_text : PyStr) (nickname_only : Bool) : List PyStr :=
  if nickname_only then _expand_nba_candidates (_nickname_only_candidates home_text)
  else home_general_candidates home_text

/-- build_candidates models the mode dispatch inside `resolve_team_slug`. -/
def build_candidates (nickname_only : Bool) (txt : PyStr) : List PyStr :=
  if nickname_only then _expand_nba_candidates (_nickname_only_candidates txt)
  else general_candidates txt

/-- PPV_STREAM_URL builds the probe address from the fixed template
`https://gg.poocloud.in/{team_name}/tracks-v1a1/mono.ts.m3u8`. -/
def PPV_STREAM_URL (slug : PyStr) : PyStr :=
  pystr "https://gg.poocloud.in/" ++ slug ++ pystr "/tracks-v1a1/mono.ts.m3u8"

/-- allowedOk models the allow-list filter `allowed_slugs is not None and
slug not in allowed_slugs` (true when the slug survives the filter). -/
def allowedOk (allowed : Option (List PyStr)) (slug : PyStr) : Bool :=
  match allowed with
  | none => true
  | some a => a.contains slug

/-- Model of the nested `first_verified` of `resolve_team_slug`; the
network probe is abstracted as the boolean oracle `verify` on probe URLs. -/
def first_verified (verify : PyStr → Bool) (allowed : Option (List PyStr)) :
    List PyStr → Option PyStr
  | [] => none
  | s :: rest =>
    if ¬ allowedOk allowed s then first_verified verify allowed rest
    else if verify (PPV_STREAM_URL s) then some s
    else first_verified verify allowed rest

/-- data_team_candidates models the candidate list built from the
page-supplied `data-team` key inside `resolve_team_slug`. -/
def data_team_candidates (nickname_only : Bool) (dt : PyStr) : List PyStr :=
  let dt_slug := _slug dt
  if nickname_only then
    if ¬ startsWithL (pystr "nba_") dt_slug then _expand_nba_candidates [dt_slug]
    else [dt_slug]
  else [dt_slug]

/-- Model of `resolve_team_slug` (the `data_team` argument models the
Python optional string; `some []` is the falsy empty string). -/
def resolve_team_slug (verify : PyStr → Bool) (data_team : Option PyStr)
    (away_team_text home_team_text : PyStr) (allowed : Option (List PyStr))
    (nickname_only : Bool) : Option PyStr :=
  match first_verified verify allowed (build_candidates nickname_only home_team_text) with
  | some s => some s
  | none =>
    match first_verified verify allowed (build_candidates nickname_only away_team_text) with
    | some s => some s
    | none =>
      match data_team with
      | none => none
      | some dt =>
        if dt = [] then none
        else first_verified verify allowed (data_team_candidates nickname_only dt)

example : general_candidates (pystr "New York Jets") =
    [pystr "newyorkjets", pystr "winnipegjets"] := by decide
example : general_candidates (pystr "cardinals") =
    [pystr "arizonacardinals", pystr "cardinals"] := by decide
example : _nickname_only_candidates (pystr "LA Lakers") = [pystr "lakers"] := by decide
example : _expand_nba_candidates [pystr "lakers"] =
    [pystr "nba_losangeleslakers", pystr "lakers"] := by decide

/-- monthPre lists the lowercase three-letter month stems of `MONTH_RE`
(the `Sept` alternative is subsumed by `Sep` plus `[a-z]*`). -/
def monthPre : List PyStr :=
  [pystr "jan", pystr "feb", pystr "mar", pystr "apr", pystr "may", pystr "jun",
   pystr "jul", pystr "aug", pystr "sep", pystr "oct", pystr "nov", pystr "dec"]

/-- monthAt decides whether the regex `(\b MONTH_RE \b.*)$` of
`normalize_game_name` matches at the start of the given lowered suffix
(the leading `\b` is the caller's burden): a month stem, the greedy
`[a-z]*` run, then an optional dot and a word boundary.  Backtracking
collapses: whenever the character after the letter run is non-word (a dot
included) some branch matches, and when it is a digit or underscore no
branch can. -/
def monthAt (s : PyStr) : Bool :=
  monthPre.any (fun p => startsWithL p s) &&
  (match (s.drop 3).dropWhile isLowerC with
   | [] => true
   | c :: _ => !isWordC c)

/-- monthScanGo scans for the leftmost month match; the flag records
whether the previous character is a word character (for `\b`). -/
def monthScanGo : Bool → PyStr → Option Nat
  | _, [] => none
  | prevW, c :: rest =>
    if !prevW && monthAt (c :: rest) then some 0
    else (monthScanGo (isWordC c) rest).map (· + 1)

/-- monthScan finds the leftmost match of the date-tail regex on an
already lowered string (`re.IGNORECASE` is modelled by lowering first). -/
def monthScan (s : PyStr) : Option Nat := monthScanGo false s

/-- monthSub models `re.sub(rf"(\bMONTH_RE\b.*)$", "", b, flags=re.IGNORECASE)`:
everything from the leftmost month-word onward is removed. -/
def monthSub (s : PyStr) : PyStr :=
  match monthScan (lowerS s) with
  | some i => s.take i
  | none => s

/-- Model of `normalize_game_name`. -/
def normalize_game_name (original_name : PyStr) : PyStr :=
  let cleaned := stripWs (splitlinesJoin original_name)
  if cleaned.contains 64 then
    let a := cleaned.takeWhile (fun c => c != 64)
    let b := (cleaned.dropWhile (fun c => c != 64)).tail
    let a2 := pyTitle (stripWs a)
    let b2 := pyTitle (stripWs (monthSub (stripWs b)))
    a2 ++ pystr " @ " ++ b2
  else pyTitle (wsNorm cleaned)

example : normalize_game_name (pystr "dallas cowboys @ philadelphia eagles Dec 28") =
    pystr "Dallas Cowboys @ Philadelphia Eagles" := by decide
example : normalize_game_name (pystr "  some\nshow  ") = pystr "Some Show" := by decide
example : normalize_game_name (pystr "a @ miami marlins") = pystr "A @ Miami" := by decide

/-- PyDate models `datetime.date` values (fields as produced by the
validated constructor). -/
structure PyDate where
  y : Nat
  m : Nat
  d : Nat
deriving DecidableEq, Repr

/-- isLeap models the proleptic-Gregorian leap-year rule used by
`datetime.date`. -/
def isLeap (y : Nat) : Bool := y % 4 = 0 && (y % 100 ≠ 0 || y % 400 = 0)

/-- daysBeforeMonth gives the day-of-year offset of each month in a
non-leap year, as in the CPython `datetime` module. -/
def daysBeforeMonth (m : Nat) : Nat :=
  match m with
  | 1 => 0 | 2 => 31 | 3 => 59 | 4 => 90 | 5 => 120 | 6 => 151
  | 7 => 181 | 8 => 212 | 9 => 243 | 10 => 273 | 11 => 304 | _ => 334

/-- rataDie models `datetime.date.toordinal`: days since 0001-01-00 of the
proleptic Gregorian calendar, so that differences of ordinals are exactly
Python's `(a - b).days`. -/
def rataDie (y m d : Nat) : Int :=
  365 * ((y : Int) - 1) + ((y - 1) / 4 : Nat) - ((y - 1) / 100 : Nat) + ((y - 1) / 400 : Nat) +
    (daysBeforeMonth m : Int) + (if 2 < m ∧ isLeap y then 1 else 0) + d

/-- daysInMonth models the month lengths checked by the `datetime.date`
constructor. -/
def daysInMonth (y m : Nat) : Nat :=
  match m with
  | 2 => if isLeap y then 29 else 28
  | 4 => 30 | 6 => 30 | 9 => 30 | 11 => 30
  | _ => 31

/-- validDate models the `datetime.date(year, mon, day)` constructor check
(`MINYEAR = 1`, `MAXYEAR = 9999`). -/
def validDate (y m d : Nat) : Bool :=
  1 ≤ y && y ≤ 9999 && 1 ≤ m && m ≤ 12 && 1 ≤ d && d ≤ daysInMonth y m

/-- mkDate models the guarded `date(...)` constructor wrapped in
`try/except`. -/
def mkDate (y m d : Nat) : Option PyDate :=
  if validDate y m d then some ⟨y, m, d⟩ else none

/-- Model of `_guess_year`. -/
def _guess_year (month day : Nat) (today : PyDate) : Nat :=
  let delta : Int := rataDie today.y month day - rataDie today.y today.m today.d
  if delta < -180 then today.y + 1
  else if delta > 180 then today.y - 1
  else today.y

/-- Model of `_month_str_to_num` (lower, strip dots, look up the token;
unknown tokens default to 1). -/
def _month_str_to_num (mon : PyStr) : Nat :=
  let key := (lowerS mon).filter (fun c => c != 46)
  if key = pystr "jan" then 1 else if key = pystr "feb" then 2
  else if key = pystr "mar" then 3 else if key = pystr "apr" then 4
  else if key = pystr "may" then 5 else if key = pystr "jun" then 6
  else if key = pystr "jul" then 7 else if key = pystr "aug" then 8
  else if key = pystr "sep" then 9 else if key = pystr "sept" then 9
  else if key = pystr "oct" then 10 else if key = pystr "nov" then 11
  else if key = pystr "dec" then 12 else 1

/-- digitVal converts an ASCII digit code point to its value. -/
def digitVal (c : Nat) : Nat := c - 48

/-- natOfDigits folds decimal digits into a number (`int(...)` on a short
digit string). -/
def natOfDigits (ds : PyStr) : Nat := ds.foldl (fun n c => 10 * n + digitVal c) 0

/-- dateMatchAt tries the regex `({MONTH_RE})\s+(\d{1,2})(?:,\s*(\d{4}))?`
at the start of the suffix (the leading `\b` is the caller's burden) and
returns the month token, the day digits and the optional year digits. -/
def dateMatchAt (s : PyStr) : Option (PyStr × PyStr × Option PyStr) :=
  if monthPre.any (fun p => startsWithL p (lowerS s)) then
    let stem := s.take 3
    let rest := s.drop 3
    let letters := rest.takeWhile (fun c => isAlphaC c)
    let rest1 := rest.dropWhile (fun c => isAlphaC c)
    let (dot, rest2) :=
      match rest1 with
      | 46 :: r => ((pystr "."), r)
      | r => (([] : PyStr), r)
    let monTok := stem ++ letters ++ dot
    let sp := rest2.takeWhile isWs
    let rest3 := rest2.dropWhile isWs
    if sp = [] then none
    else
      match rest3 with
      | d1 :: r4 =>
        if isDigitC d1 then
          let (dayDs, r5) :=
            match r4 with
            | d2 :: r5' => if isDigitC d2 then ([d1, d2], r5') else ([d1], d2 :: r5')
            | [] => ([d1], ([] : PyStr))
          let yearDs : Option PyStr :=
            match r5 with
            | 44 :: r6 =>
              let r7 := r6.dropWhile isWs
              match r7 with
              | y1 :: y2 :: y3 :: y4 :: _ =>
                if isDigitC y1 && isDigitC y2 && isDigitC y3 && isDigitC y4 then
                  some [y1, y2, y3, y4]
                else none
              | _ => none
            | _ => none
          some (monTok, dayDs, yearDs)
        else none
      | [] => none
  else none

/-- dateScanGo finds the leftmost position where the date regex matches,
tracking the word-character flag for the leading `\b`. -/
def dateScanGo : Bool → PyStr → Option (PyStr × PyStr × Option PyStr)
  | _, [] => none
  | prevW, c :: rest =>
    match if !prevW then dateMatchAt (c :: rest) else none with
    | some r => some r
    | none => dateScanGo (isWordC c) rest

/-- Model of `parse_date_title`. -/
def parse_date_title (text : PyStr) (today : PyDate) : Option PyDate :=
  let t := wsNorm text
  match dateScanGo false t with
  | none => none
  | some (monTok, dayDs, yearDs) =>
    let mon := _month_str_to_num monTok
    let day := natOfDigits dayDs
    let year :=
      match yearDs with
      | some ys => natOfDigits ys
      | none => _guess_year mon day today
    mkDate year mon day

example : parse_date_title (pystr "Sunday, Dec 28") ⟨2025, 1, 5⟩ =
    some ⟨2024, 12, 28⟩ := by decide
example : parse_date_title (pystr "Jan 5, 2025") ⟨2024, 6, 1⟩ =
    some ⟨2025, 1, 5⟩ := by decide
example : parse_date_title (pystr "no date here") ⟨2025, 1, 5⟩ = none := by decide
example : parse_date_title (pystr "Jul 2") ⟨2024, 1, 3⟩ = some ⟨2023, 7, 2⟩ := by decide
example : rataDie 2024 1 3 - rataDie 2023 7 2 = 185 := by decide
example : rataDie 2024 7 2 - rataDie 2024 1 3 = 181 := by decide

/-- ampmAt matches the `(AM|PM)` tail of `TIME_RE` case-insensitively and
returns whether it is PM. -/
def ampmAt (s : PyStr) : Option Bool :=
  match s with
  | c1 :: c2 :: _ =>
    if (c1 = 65 ∨ c1 = 97) ∧ (c2 = 77 ∨ c2 = 109) then some false
    else if (c1 = 80 ∨ c1 = 112) ∧ (c2 = 77 ∨ c2 = 109) then some true
    else none
  | _ => none

/-- timeMatchAt tries `(\d{1,2}):(\d{2})\s*(AM|PM)` at the start of the
suffix, two-digit hour first, as the greedy `\d{1,2}` does. -/
def timeMatchAt (s : PyStr) : Option (Nat × Nat × Bool) :=
  (match s with
   | d1 :: d2 :: 58 :: m1 :: m2 :: rest =>
     if isDigitC d1 && isDigitC d2 && isDigitC m1 && isDigitC m2 then
       (ampmAt (rest.dropWhile isWs)).map
         (fun pm => (10 * digitVal d1 + digitVal d2, 10 * digitVal m1 + digitVal m2, pm))
     else none
   | _ => none).orElse (fun _ =>
    match s with
    | d1 :: 58 :: m1 :: m2 :: rest =>
      if isDigitC d1 && isDigitC m1 && isDigitC m2 then
        (ampmAt (rest.dropWhile isWs)).map
          (fun pm => (digitVal d1, 10 * digitVal m1 + digitVal m2, pm))
      else none
    | _ => none)

/-- timeScanGo finds the leftmost `TIME_RE` match, returning its start
index together with the captured fields. -/
def timeScanGo (i : Nat) : PyStr → Option (Nat × Nat × Nat × Bool)
  | [] => none
  | c :: rest =>
    match timeMatchAt (c :: rest) with
    | some (h, m, pm) => some (i, h, m, pm)
    | none => timeScanGo (i + 1) rest

/-- Model of the `TZ_ABBR_MAP` table (zones kept as their IANA names). -/
def TZ_ABBR_MAP : List (PyStr × PyStr) :=
  [ (pystr "ET", pystr "America/New_York"), (pystr "EST", pystr "America/New_York"),
    (pystr "EDT", pystr "America/New_York"),
    (pystr "CT", pystr "America/Chicago"), (pystr "CST", pystr "America/Chicago"),
    (pystr "CDT", pystr "America/Chicago"),
    (pystr "MT", pystr "America/Denver"), (pystr "MST", pystr "America/Denver"),
    (pystr "MDT", pystr "America/Denver"),
    (pystr "PT", pystr "America/Los_Angeles"), (pystr "PST", pystr "America/Los_Angeles"),
    (pystr "PDT", pystr "America/Los_Angeles") ]

/-- boundaryAfter decides the trailing `\b` of `TZ_ABBR_NEAR`: true at end
of text or before a non-word character. -/
def boundaryAfter (r : PyStr) : Bool :=
  match r with
  | [] => true
  | c :: _ => !isWordC c

/-- tzMatchAt tries `([ECMP][SD]?T|ET|CT|MT|PT)\b` at the start of the
suffix case-insensitively (the leading `\b` is the caller's burden), and
returns the canonical uppercased abbreviation; the `ET|CT|MT|PT`
alternatives are subsumed by `[ECMP][SD]?T` with an empty `[SD]?`. -/
def tzMatchAt (s : PyStr) : Option PyStr :=
  match s with
  | c1 :: rest =>
    let u1 := toUpperC c1
    if u1 = 69 ∨ u1 = 67 ∨ u1 = 77 ∨ u1 = 80 then
      match rest with
      | c2 :: rest2 =>
        let u2 := toUpperC c2
        if u2 = 83 ∨ u2 = 68 then
          match rest2 with
          | c3 :: rest3 =>
            if toUpperC c3 = 84 ∧ boundaryAfter rest3 then some [u1, u2, 84] else none
          | [] => none
        else if u2 = 84 ∧ boundaryAfter rest2 then some [u1, 84]
        else none
      | [] => none
    else none
  | [] => none

/-- tzScanGo finds the leftmost `TZ_ABBR_NEAR` match, tracking the
word-character flag for the leading `\b`. -/
def tzScanGo : Bool → PyStr → Option PyStr
  | _, [] => none
  | prevW, c :: rest =>
    match if !prevW then tzMatchAt (c :: rest) else none with
    | some a => some a
    | none => tzScanGo (isWordC c) rest

/-- Model of `parse_time_and_tz`; zones are their IANA names and the
site's default zone is passed in, as in the source. -/
def parse_time_and_tz (text : PyStr) (default_tz : PyStr) :
    Option Nat × Option Nat × PyStr :=
  match timeScanGo 0 text with
  | none => (none, none, default_tz)
  | some (start, hh0, mm, isPM) =>
    let hh1 := if isPM ∧ hh0 ≠ 12 then hh0 + 12 else hh0
    let hh := if ¬ isPM ∧ hh1 = 12 then 0 else hh1
    let lo := start - 16
    let window := (text.drop lo).take (start + 32 - lo)
    let tzinfo :=
      match tzScanGo false window with
      | some abbr =>
        match dget TZ_ABBR_MAP abbr with
        | some z => z
        | none => default_tz
      | none => default_tz
    (some hh, some mm, tzinfo)

example : parse_time_and_tz (pystr "Start 7:00 PM PT today") (pystr "America/New_York") =
    (some 19, some 0, pystr "America/Los_Angeles") := by decide
example : parse_time_and_tz (pystr "12:00 AM") (pystr "America/New_York") =
    (some 0, some 0, pystr "America/New_York") := by decide
example : parse_time_and_tz (pystr "12:15 PM est") (pystr "America/Chicago") =
    (some 12, some 15, pystr "America/New_York") := by decide

/-- DispDT models an aware `datetime` already converted to the fixed
display timezone, keeping just what `format_game_datetime` reads: the
broken-down fields and the `tzname()` abbreviation. -/
structure DispDT where
  y : Nat
  m : Nat
  d : Nat
  hh : Nat
  mm : Nat
  tzAbbr : PyStr
deriving DecidableEq, Repr

/-- MONTH_ABBR models `strftime("%b")`. -/
def MONTH_ABBR (m : Nat) : PyStr :=
  match m with
  | 1 => pystr "Jan" | 2 => pystr "Feb" | 3 => pystr "Mar" | 4 => pystr "Apr"
  | 5 => pystr "May" | 6 => pystr "Jun" | 7 => pystr "Jul" | 8 => pystr "Aug"
  | 9 => pystr "Sep" | 10 => pystr "Oct" | 11 => pystr "Nov" | _ => pystr "Dec"

/-- natToDecGo renders a natural number in decimal (fuel-indexed so the
definition is structural and computes in the kernel). -/
def natToDecGo : Nat → Nat → PyStr
  | 0, _ => []
  | fuel + 1, n => if n < 10 then [48 + n] else natToDecGo fuel (n / 10) ++ [48 + n % 10]

/-- natToDec renders a natural number in decimal, as the unpadded
`strftime` directives `%-d` and `%-I` do. -/
def natToDec (n : Nat) : PyStr := natToDecGo (n + 1) n

/-- twoDigits renders a number zero-padded to width two (`%M`). -/
def twoDigits (n : Nat) : PyStr := if n < 10 then 48 :: natToDec n else natToDec n

/-- hour12 converts a 24-hour value to the 12-hour clock of `%-I`. -/
def hour12 (h : Nat) : Nat := if h % 12 = 0 then 12 else h % 12

/-- ampmS models `strftime("%p")`. -/
def ampmS (h : Nat) : PyStr := if h < 12 then pystr "AM" else pystr "PM"

/-- Model of `format_game_datetime` (the `%b %-d` / `%-I:%M %p` Linux
format branch; the Windows `%#` branch renders identically). -/
def format_game_datetime (game_name : PyStr) (dt_local : Option DispDT) : PyStr :=
  match dt_local with
  | none => game_name
  | some t =>
    game_name ++ pystr " • " ++ MONTH_ABBR t.m ++ [32] ++ natToDec t.d ++ pystr " at " ++
      natToDec (hour12 t.hh) ++ [58] ++ twoDigits t.mm ++ [32] ++ ampmS t.hh ++ [32] ++ t.tzAbbr

example : format_game_datetime (pystr "A @ B")
    (some ⟨2025, 1, 5, 20, 20, pystr "PST"⟩) =
    pystr "A @ B • Jan 5 at 8:20 PM PST" := by decide
example : format_game_datetime (pystr "A @ B") none = pystr "A @ B" := by decide

/-- SiteDT models the naive wall-clock datetime built from the parsed
row data together with its inferred source zone, before the
`astimezone(LOCAL_TZ)` conversion. -/
structure SiteDT where
  y : Nat
  m : Nat
  d : Nat
  hh : Nat
  mm : Nat
  tz : PyStr
deriving DecidableEq, Repr

/-- assemble_dt models the guarded construction of `dt_local` in the
scrapers: when a date and both time fields are present and
`datetime(...)` accepts them, the instant is converted to the display
timezone by `astz` (the model of `astimezone(LOCAL_TZ)`, kept abstract
because it reads the tz database); otherwise the row has no instant. -/
def assemble_dt (astz : SiteDT → DispDT) (game_date : Option PyDate)
    (hh mm : Option Nat) (tz : PyStr) : Option DispDT :=
  match game_date, hh, mm with
  | some gd, some h, some mi =>
    if validDate gd.y gd.m gd.d && h ≤ 23 && mi ≤ 59 then
      some (astz ⟨gd.y, gd.m, gd.d, h, mi, tz⟩)
    else none
  | _, _, _ => none

/-- ppv_match_name models the display-name construction of
`scrape_ppv_league`:
`format_game_datetime(normalize_game_name(f"{away} @ {home}"), dt_local)`. -/
def ppv_match_name (astz : SiteDT → DispDT) (away home : PyStr)
    (game_date : Option PyDate) (hh mm : Option Nat) (tz : PyStr) : PyStr :=
  format_game_datetime (normalize_game_name (away ++ pystr " @ " ++ home))
    (assemble_dt astz game_date hh mm tz)

/-- ProbeOutcome models what `session.head(...)` can do: deliver a status
code, or fail with a timeout or connection error (any raised exception). -/
inductive ProbeOutcome where
  | status (code : Nat)
  | timeout
  | connectionError
deriving DecidableEq, Repr

/-- Model of `verify_stream_url`: true exactly on status 200; every
exception is swallowed into `False`. -/
def verify_stream_url (r : ProbeOutcome) : Bool :=
  match r with
  | .status c => c == 200
  | .timeout => false
  | .connectionError => false

/-- ppv_row_resolve models the slug resolution of one `scrape_ppv_league`
row: a page-declared backup slug is taken first, but only when it is
truthy, its probe verifies and it lies in the home-team candidate set;
otherwise `resolve_team_slug` runs. -/
def ppv_row_resolve (verify : PyStr → Bool) (backup_slug : Option PyStr)
    (team_key : Option PyStr) (away home : PyStr) (allowed : Option (List PyStr))
    (nickname_only : Bool) : Option PyStr :=
  let viaBackup : Option PyStr :=
    match backup_slug with
    | some b =>
      if b ≠ [] ∧ verify (PPV_STREAM_URL b) ∧ (_home_match_candidates home nickname_only).contains b
      then some b else none
    | none => none
  match viaBackup with
  | some s => some s
  | none => resolve_team_slug verify team_key away home allowed nickname_only

/-- StreamEvent models one entry of the output collection (the
`custom_headers` flag records whether the fixed PPV header bundle is
attached). -/
structure StreamEvent where
  name : PyStr
  url : PyStr
  tvg_id : PyStr
  tvg_logo : PyStr
  group : PyStr
  ref : PyStr
  custom_headers : Bool
deriving DecidableEq, Repr

/-- ChanMeta models one `CHANNEL_METADATA` record. -/
structure ChanMeta where
  name : PyStr
  id : PyStr
  logo : PyStr
deriving DecidableEq, Repr

/-- Model of the `CHANNEL_METADATA` table (logo URLs abbreviated to their
distinguishing file name; only equality of records matters here). -/
def CHANNEL_METADATA : List (PyStr × ChanMeta) :=
  [ (pystr "nflnetwork", ⟨pystr "NFL Network", pystr "NFL.Network.HD.us2", pystr "nfl-network-hz-us.png"⟩),
    (pystr "nflredzone", ⟨pystr "NFL RedZone", pystr "NFL.RedZone.HD.us2", pystr "nfl-red-zone-hz-us.png"⟩),
    (pystr "espnusa", ⟨pystr "ESPN", pystr "ESPN.HD.us2", pystr "espn-us.png"⟩) ]

/-- metaGet models `CHANNEL_METADATA.get(key, {})`. -/
def metaGet (k : PyStr) : Option ChanMeta :=
  (CHANNEL_METADATA.find? (fun p => p.1 == k)).map (fun p => p.2)

/-- GameRow models one schedule row of `scrape_league` after the external
DOM traversal: its link text, the stream URL found for its page (if any)
and the already-assembled local instant. -/
structure GameRow where
  name : PyStr
  stream : Option PyStr
  dt : Option DispDT
deriving DecidableEq, Repr

/-- ChanRow models one 24/7 channel URL of `scrape_league`: the slug that
`url.strip("/").split("/")[-1]` extracts, and the stream found on the
page (if any). -/
structure ChanRow where
  url_slug : PyStr
  stream : Option PyStr
deriving DecidableEq, Repr

/-- FoundVal is the value type of the `found` dict of `scrape_league`. -/
abbrev FoundVal := PyStr × PyStr × Option DispDT

/-- foundInsert models the Python dict assignment `found[name] = v`:
an existing key keeps its position but its value is replaced; a new key
is appended. -/
def foundInsert (m : List (PyStr × FoundVal)) (k : PyStr) (v : FoundVal) :
    List (PyStr × FoundVal) :=
  if m.any (fun p => p.1 == k) then m.map (fun p => if p.1 == k then (p.1, v) else p)
  else m ++ [(k, v)]

/-- scrape_league_contribs lists the dict assignments `scrape_league`
performs, in program order: verified game rows, then verified channels. -/
def scrape_league_contribs (rows : List GameRow) (channels : List ChanRow) :
    List (PyStr × FoundVal) :=
  rows.filterMap (fun r => r.stream.map (fun u => (r.name, (u, pystr "Live Games", r.dt)))) ++
  channels.filterMap (fun c => c.stream.map (fun u => (c.url_slug, (u, pystr "24/7 Channels", (none : Option DispDT)))))

/-- scrape_league_found folds the assignments into the `found` dict. -/
def scrape_league_found (rows : List GameRow) (channels : List ChanRow) :
    List (PyStr × FoundVal) :=
  (scrape_league_contribs rows channels).foldl (fun m p => foundInsert m p.1 p.2) []

/-- lexLt is code-point lexicographic order on strings, as Python string
`<` used by `sorted` compares. -/
def lexLt : PyStr → PyStr → Bool
  | [], [] => false
  | [], _ :: _ => true
  | _ :: _, [] => false
  | a :: x, b :: y => if a < b then true else if b < a then false else lexLt x y

/-- insertByKey inserts one dict item into a list sorted by `lexLt` on
keys, keeping earlier equal keys first (keys here are distinct anyway). -/
def insertByKey (x : PyStr × FoundVal) : List (PyStr × FoundVal) → List (PyStr × FoundVal)
  | [] => [x]
  | y :: ys => if lexLt y.1 x.1 then y :: insertByKey x ys else x :: y :: ys

/-- sortByKey models `sorted(found.items())` (keys are pairwise distinct,
so sorting by key alone reproduces Python's tuple sort). -/
def sortByKey (l : List (PyStr × FoundVal)) : List (PyStr × FoundVal) :=
  l.foldr insertByKey []

/-- mkLeagueEntry models the output-building loop body of `scrape_league`. -/
def mkLeagueEntry (base_url group_px default_id default_logo : PyStr)
    (kv : PyStr × FoundVal) : StreamEvent :=
  let k := kv.1
  let base_name := match metaGet k with | some i => i.name | none => k
  let display := if k.contains 64 then k else base_name
  let pretty := format_game_datetime (normalize_game_name display) kv.2.2.2
  { name := pretty, url := kv.2.1,
    tvg_id := (match metaGet k with | some i => i.id | none => default_id),
    tvg_logo := (match metaGet k with | some i => i.logo | none => default_logo),
    group := group_px ++ pystr " - " ++ kv.2.2.1,
    ref := base_url, custom_headers := false }

/-- Model of `scrape_league` downstream of the external page scraping:
accumulate the `found` dict over the rows and channels, then emit one
event per item in key order. -/
def scrape_league (base_url group_px default_id default_logo : PyStr)
    (rows : List GameRow) (channels : List ChanRow) : List StreamEvent :=
  (sortByKey (scrape_league_found rows channels)).map
    (mkLeagueEntry base_url group_px default_id default_logo)

/-- PpvRow models one parsed schedule row of `scrape_ppv_league` after
the external HTML parsing: team texts, the optional `data-team` key and
backup slug, the logo, the row's time-bearing text and the date context
current at that row. -/
structure PpvRow where
  away : PyStr
  home : PyStr
  team_key : Option PyStr
  backup : Option PyStr
  logo : PyStr
  row_text : PyStr
  date_ctx : Option PyDate
deriving DecidableEq, Repr

/-- scrape_ppv_row models the body of the `scrape_ppv_league` loop for
one row: resolve a slug (backup first), parse time/zone and date, build
the display name, and emit the event only when the final probe verifies. -/
def scrape_ppv_row (verify : PyStr → Bool) (astz : SiteDT → DispDT)
    (allowed : Option (List PyStr)) (nickname_only : Bool)
    (site_tz : PyStr) (today : PyDate)
    (base_url group_name tvg_id : PyStr) (r : PpvRow) : Option StreamEvent :=
  match ppv_row_resolve verify r.backup r.team_key r.away r.home allowed nickname_only with
  | none => none
  | some slug =>
    let stream_url := PPV_STREAM_URL slug
    let (hh, mm, tzinfo) := parse_time_and_tz r.row_text site_tz
    let inline_date := parse_date_title r.row_text today
    let game_date := match inline_date with | some d => some d | none => r.date_ctx
    let match_name := ppv_match_name astz r.away r.home game_date hh mm tzinfo
    if verify stream_url then
      some { name := match_name, url := stream_url, tvg_id := tvg_id,
             tvg_logo := r.logo, group := group_name ++ pystr " - Live Games",
             ref := base_url, custom_headers := true }
    else none

/-- Model of `scrape_ppv_league` downstream of the external HTML parsing:
events are appended row by row, with no deduplication. -/
def scrape_ppv_league (verify : PyStr → Bool) (astz : SiteDT → DispDT)
    (allowed : Option (List PyStr)) (nickname_only : Bool)
    (site_tz : PyStr) (today : PyDate)
    (base_url group_name tvg_id : PyStr) (rows : List PpvRow) : List StreamEvent :=
  rows.filterMap (scrape_ppv_row verify astz allowed nickname_only site_tz today
    base_url group_name tvg_id)

/-- lastAssign reads, directly off the assignment list, the value the
`found` dict ends up holding for a key: the value of the last assignment
to it. -/
def lastAssign (l : List (PyStr × FoundVal)) (k : PyStr) : Option FoundVal :=
  (l.reverse.find? (fun p => p.1 == k)).map (fun p => p.2)

theorem first_verified_eq_none_iff (verify : PyStr → Bool) (allowed : Option (List PyStr))
    (l : List PyStr) :
    first_verified verify allowed l = none ↔
      ∀ c ∈ l, allowedOk allowed c = true → verify (PPV_STREAM_URL c) = false := by
  induction l with
  | nil => simp [first_verified]
  | cons s rest ih =>
    by_cases ha : allowedOk allowed s = true
    · by_cases hv : verify (PPV_STREAM_URL s) = true
      · simp [first_verified, ha, hv, List.forall_mem_cons]
      · simp [first_verified, ha, hv, ih, List.forall_mem_cons]
    · simp [first_verified, ha, ih, List.forall_mem_cons]

theorem first_verified_mem (verify : PyStr → Bool) (allowed : Option (List PyStr))
    (l : List PyStr) (s : PyStr) (h : first_verified verify allowed l = some s) :
    s ∈ l ∧ allowedOk allowed s = true ∧ verify (PPV_STREAM_URL s) = true := by
  induction l with
  | nil => simp [first_verified] at h
  | cons c rest ih =>
    by_cases ha : allowedOk allowed c = true
    · by_cases hv : verify (PPV_STREAM_URL c) = true
      · simp [first_verified, ha, hv] at h
        subst h
        exact ⟨by simp, ha, hv⟩
      · simp [first_verified, ha, hv] at h
        obtain ⟨h1, h2, h3⟩ := ih h
        exact ⟨by simp [h1], h2, h3⟩
    · simp [first_verified, ha] at h
      obtain ⟨h1, h2, h3⟩ := ih h
      exact ⟨by simp [h1], h2, h3⟩

theorem first_verified_isSome (verify : PyStr → Bool) (allowed : Option (List PyStr))
    (l : List PyStr) (h : ∃ c ∈ l, allowedOk allowed c = true ∧ verify (PPV_STREAM_URL c) = true) :
    ∃ s, first_verified verify allowed l = some s := by
  rcases Option.eq_none_or_eq_some (first_verified verify allowed l) with hn | hs
  · obtain ⟨c, hc, hac, hv⟩ := h
    exact absurd hv (by simp [(first_verified_eq_none_iff verify allowed l).mp hn c hc hac])
  · exact hs

/-- C9: the endpoint verifier returns true exactly when the probe yields
status 200; a timeout, a connection error or any other status yields
false, and the verifier is a total function (no exception escapes it). -/
theorem verify_stream_url_iff (r : ProbeOutcome) :
    verify_stream_url r = true ↔ r = ProbeOutcome.status 200 := by
  cases r <;> simp [verify_stream_url]

/-- C3: the slug resolver tries home-team candidates, then away-team
candidates, then the page-supplied key, short-circuiting on the first
candidate that passes the allow-list filter and verifies.  If every home
candidate fails and some away candidate passes, the result is exactly the
first passing away candidate and the page-supplied key is never reached;
if all three stages fail the resolver returns absence. -/
theorem resolve_team_slug_precedence (verify : PyStr → Bool) (data_team : Option PyStr)
    (away home : PyStr) (allowed : Option (List PyStr)) (nick : Bool) :
    ((∀ c ∈ build_candidates nick home,
        allowedOk allowed c = true → verify (PPV_STREAM_URL c) = false) →
     (∃ c ∈ build_candidates nick away,
        allowedOk allowed c = true ∧ verify (PPV_STREAM_URL c) = true) →
     resolve_team_slug verify data_team away home allowed nick =
        first_verified verify allowed (build_candidates nick away) ∧
     ∃ s, resolve_team_slug verify data_team away home allowed nick = some s ∧
        s ∈ build_candidates nick away ∧ allowedOk allowed s = true ∧
        verify (PPV_STREAM_URL s) = true) ∧
    ((∀ c ∈ build_candidates nick home,
        allowedOk allowed c = true → verify (PPV_STREAM_URL c) = false) →
     (∀ c ∈ build_candidates nick away,
        allowedOk allowed c = true → verify (PPV_STREAM_URL c) = false) →
     (∀ dt, data_team = some dt →
        ∀ c ∈ data_team_candidates nick dt,
          allowedOk allowed c = true → verify (PPV_STREAM_URL c) = false) →
     resolve_team_slug verify data_team away home allowed nick = none) := by
  constructor
  · intro hhome haway
    have h0 : first_verified verify allowed (build_candidates nick home) = none :=
      (first_verified_eq_none_iff _ _ _).mpr hhome
    obtain ⟨s, hs⟩ := first_verified_isSome verify allowed _ haway
    obtain ⟨hmem, hok, hv⟩ := first_verified_mem verify allowed _ s hs
    refine ⟨?_, s, ?_, hmem, hok, hv⟩ <;>
      simp [resolve_team_slug, h0, hs]
  · intro hhome haway hdt
    have h0 : first_verified verify allowed (build_candidates nick home) = none :=
      (first_verified_eq_none_iff _ _ _).mpr hhome
    have h1 : first_verified verify allowed (build_candidates nick away) = none :=
      (first_verified_eq_none_iff _ _ _).mpr haway
    cases data_team with
    | none => simp [resolve_team_slug, h0, h1]
    | some dt =>
      have h2 : first_verified verify allowed (data_team_candidates nick dt) = none :=
        (first_verified_eq_none_iff _ _ _).mpr (hdt dt rfl)
      by_cases he : dt = [] <;> simp [resolve_team_slug, h0, h1, h2, he]

/-- Witness for `resolve_team_slug_precedence`: home "Anaheim Ducks" fails
verification, away "Boston Bruins" verifies, the page key is ignored. -/
theorem resolve_team_slug_precedence_witness :
    resolve_team_slug (fun u => u == PPV_STREAM_URL (pystr "bostonbruins"))
        (some (pystr "espnusa")) (pystr "Boston Bruins") (pystr "Anaheim Ducks") none false =
      first_verified (fun u => u == PPV_STREAM_URL (pystr "bostonbruins")) none
        (build_candidates false (pystr "Boston Bruins")) ∧
    ∃ s, resolve_team_slug (fun u => u == PPV_STREAM_URL (pystr "bostonbruins"))
        (some (pystr "espnusa")) (pystr "Boston Bruins") (pystr "Anaheim Ducks") none false = some s ∧
      s ∈ build_candidates false (pystr "Boston Bruins") ∧
      allowedOk none s = true ∧
      (fun u => u == PPV_STREAM_URL (pystr "bostonbruins")) (PPV_STREAM_URL s) = true :=
  (resolve_team_slug_precedence (fun u => u == PPV_STREAM_URL (pystr "bostonbruins"))
    (some (pystr "espnusa")) (pystr "Boston Bruins") (pystr "Anaheim Ducks") none false).1
    (by decide) (by decide)

/-- C4: a page-declared backup slug becomes the resolved slug only when it
is truthy, its probe verifies and it is a member of the home-team
candidate set; in every other case it is ignored and the normal
home/away/page-key resolution runs. -/
theorem ppv_backup_slug_acceptance (verify : PyStr → Bool) (team_key : Option PyStr)
    (away home b : PyStr) (allowed : Option (List PyStr)) (nick : Bool) :
    ((b ≠ [] ∧ verify (PPV_STREAM_URL b) = true ∧
        (_home_match_candidates home nick).contains b = true) →
      ppv_row_resolve verify (some b) team_key away home allowed nick = some b) ∧
    (¬ (b ≠ [] ∧ verify (PPV_STREAM_URL b) = true ∧
        (_home_match_candidates home nick).contains b = true) →
      ppv_row_resolve verify (some b) team_key away home allowed nick =
        resolve_team_slug verify team_key away home allowed nick) := by
  constructor <;> intro h <;> simp only [ppv_row_resolve, if_pos, if_neg, h] <;> simp [h]

/-- Witness for `ppv_backup_slug_acceptance`: a verifying backup slug in
the home candidate set is taken (first arm), and one outside the set is
ignored (second arm). -/
theorem ppv_backup_slug_acceptance_witness :
    ppv_row_resolve (fun u => u == PPV_STREAM_URL (pystr "anaheimducks"))
        (some (pystr "anaheimducks")) none (pystr "Boston Bruins") (pystr "Anaheim Ducks")
        none false = some (pystr "anaheimducks") ∧
    ppv_row_resolve (fun u => u == PPV_STREAM_URL (pystr "bostonbruins"))
        (some (pystr "bostonbruins")) none (pystr "Boston Bruins") (pystr "Anaheim Ducks")
        none false =
      resolve_team_slug (fun u => u == PPV_STREAM_URL (pystr "bostonbruins"))
        none (pystr "Boston Bruins") (pystr "Anaheim Ducks") none false :=
  ⟨(ppv_backup_slug_acceptance (fun u => u == PPV_STREAM_URL (pystr "anaheimducks"))
      none (pystr "Boston Bruins") (pystr "Anaheim Ducks") (pystr "anaheimducks") none false).1
      (by decide),
   (ppv_backup_slug_acceptance (fun u => u == PPV_STREAM_URL (pystr "bostonbruins"))
      none (pystr "Boston Bruins") (pystr "Anaheim Ducks") (pystr "bostonbruins") none false).2
      (by decide)⟩

/-- C10: whenever the resolver runs with an allow-list, any slug it
returns is a member of that list; the filter applies uniformly to the
home, away and page-key stages. -/
theorem resolve_team_slug_allowlist_member (verify : PyStr → Bool) (data_team : Option PyStr)
    (away home s : PyStr) (A : List PyStr) (nick : Bool) (hA : A ≠ [])
    (h : resolve_team_slug verify data_team away home (some A) nick = some s) :
    s ∈ A := by
  have hmem : ∀ t : PyStr, allowedOk (some A) t = true → t ∈ A := by
    intro t ht
    simpa [allowedOk] using ht
  unfold resolve_team_slug at h
  cases hh : first_verified verify (some A) (build_candidates nick home) with
  | some t =>
    rw [hh] at h
    simp only [Option.some.injEq] at h
    subst h
    exact hmem _ (first_verified_mem _ _ _ _ hh).2.1
  | none =>
    rw [hh] at h
    cases ha : first_verified verify (some A) (build_candidates nick away) with
    | some t =>
      rw [ha] at h
      simp only [Option.some.injEq] at h
      subst h
      exact hmem _ (first_verified_mem _ _ _ _ ha).2.1
    | none =>
      rw [ha] at h
      cases data_team with
      | none => simp at h
      | some dt =>
        by_cases he : dt = []
        · simp [he] at h
        · simp only [he, if_neg, if_false] at h
          exact hmem _ (first_verified_mem _ _ _ _ h).2.1

/-- Witness for `resolve_team_slug_allowlist_member` at a concrete run. -/
theorem resolve_team_slug_allowlist_member_witness :
    pystr "bostonbruins" ∈ [pystr "bostonbruins", pystr "anaheimducks"] :=
  resolve_team_slug_allowlist_member (fun u => u == PPV_STREAM_URL (pystr "bostonbruins"))
    none (pystr "Boston Bruins") (pystr "Anaheim Ducks") (pystr "bostonbruins")
    [pystr "bostonbruins", pystr "anaheimducks"] false (by decide) (by decide)

theorem slug_append (a b : PyStr) : _slug (a ++ b) = _slug a ++ _slug b := by
  simp [_slug, lowerS, List.filter_append]

theorem slug_cons (c : Nat) (rest : PyStr) : _slug (c :: rest) = _slug [c] ++ _slug rest := by
  rw [show (c :: rest : PyStr) = [c] ++ rest from rfl, slug_append]

theorem isAlnumLow_toLowerC_of_ws (c : Nat) (h : isWs c = true) :
    isAlnumLow (toLowerC c) = false := by
  have hc : c = 32 ∨ c = 9 ∨ c = 10 ∨ c = 11 ∨ c = 12 ∨ c = 13 ∨ c = 28 ∨ c = 29 ∨
      c = 30 ∨ c = 133 ∨ c = 160 ∨ c = 8232 ∨ c = 8233 := by
    simp only [isWs, Bool.or_eq_true, decide_eq_true_eq] at h
    tauto
  rcases hc with rfl|rfl|rfl|rfl|rfl|rfl|rfl|rfl|rfl|rfl|rfl|rfl|rfl <;> decide

theorem slug_of_ws (w : PyStr) (h : ∀ c ∈ w, isWs c = true) : _slug w = [] := by
  induction w with
  | nil => rfl
  | cons c rest ih =>
    simp only [_slug, lowerS, List.map_cons, List.filter_cons,
      isAlnumLow_toLowerC_of_ws c (h c (by simp))]
    exact ih (fun d hd => h d (by simp [hd]))

theorem toLowerC_toLowerC (c : Nat) : toLowerC (toLowerC c) = toLowerC c := by
  simp only [toLowerC, isUpperC]
  split_ifs with h1 h2 <;> try rfl
  simp only [Bool.and_eq_true, decide_eq_true_eq] at h1 h2
  omega

theorem slug_lowerS (s : PyStr) : _slug (lowerS s) = _slug s := by
  simp [_slug, lowerS, List.map_map, Function.comp_def, toLowerC_toLowerC]

theorem slug_lstrip (s : PyStr) : _slug (lstrip s) = _slug s := by
  conv_rhs => rw [← List.takeWhile_append_dropWhile isWs s]
  rw [slug_append, slug_of_ws _ (fun c hc => List.mem_takeWhile_imp hc), List.nil_append]
  rfl

theorem slug_rstrip (s : PyStr) : _slug (rstrip s) = _slug s := by
  have hs : s = rstrip s ++ (s.reverse.takeWhile isWs).reverse := by
    simp only [rstrip]
    rw [← List.reverse_append, ← List.takeWhile_append_dropWhile isWs s.reverse]
    simp
  conv_rhs => rw [hs]
  rw [slug_append, slug_of_ws ((s.reverse.takeWhile isWs).reverse)
    (fun c hc => List.mem_takeWhile_imp (List.mem_reverse.mp hc))]
  simp

theorem slug_stripWs (s : PyStr) : _slug (stripWs s) = _slug s := by
  rw [stripWs, slug_rstrip, slug_lstrip]

theorem slug_pySplitGo (s : PyStr) (acc : Option PyStr) :
    ((pySplitGo acc s).map _slug).foldr (· ++ ·) [] =
      (match acc with | some w => _slug w.reverse | none => []) ++ _slug s := by
  induction s generalizing acc with
  | nil => cases acc <;> simp [pySplitGo, _slug, lowerS]
  | cons c rest ih =>
    cases hb : isWs c with
    | true =>
      have hc : _slug (c :: rest) = _slug rest := by
        rw [slug_cons, slug_of_ws [c] (by simp [hb])]
        simp
      cases acc with
      | none => simpa [pySplitGo, hb, hc] using ih none
      | some w => simp [pySplitGo, hb, hc, ih none]
    | false =>
      cases acc with
      | none =>
        rw [show pySplitGo none (c :: rest) = pySplitGo (some [c]) rest by
          simp [pySplitGo, hb]]
        rw [ih (some [c])]
        simp only [List.reverse_singleton, List.nil_append]
        rw [slug_cons c rest]
      | some w =>
        rw [show pySplitGo (some w) (c :: rest) = pySplitGo (some (c :: w)) rest by
          simp [pySplitGo, hb]]
        rw [ih (some (c :: w))]
        simp only [List.reverse_cons]
        rw [slug_append, slug_cons c rest]
        simp

theorem slug_joinParts (parts : List PyStr) :
    _slug (joinWith [32] parts) = (parts.map _slug).foldr (· ++ ·) [] := by
  induction parts with
  | nil => rfl
  | cons x rest ih =>
    cases rest with
    | nil => simp [joinWith]
    | cons y t =>
      rw [show joinWith [32] (x :: y :: t) = x ++ [32] ++ joinWith [32] (y :: t) from rfl,
        slug_append, slug_append, ih, slug_of_ws [32] (by decide)]
      simp

theorem slug_wsNorm (s : PyStr) : _slug (wsNorm s) = _slug s := by
  rw [wsNorm, slug_joinParts]
  simpa using slug_pySplitGo s none

/-- C2 is refuted on the input "New York Jets": the raw slugification
"newyorkjets" is already the full-name table hit, so the appended-last
fallback is skipped and the last candidate is the nickname hit
"winnipegjets", not the raw slug. -/
theorem general_candidates_fallback_refuted :
    general_candidates (pystr "New York Jets") = [pystr "newyorkjets", pystr "winnipegjets"] ∧
    _slug (pystr "New York Jets") = pystr "newyorkjets" ∧
    (general_candidates (pystr "New York Jets")).getLast? ≠
      some (_slug (pystr "New York Jets")) := by decide

/-- C2 (amended): in full-name mode, whenever the raw alphanumeric-only
slugification of the whole input is non-empty it appears among the
candidates, and whenever it is not already one of the table-derived
candidates it is appended as the last element; when a table lookup already
produced the same slug, the fallback is not re-appended and need not be
last. -/
theorem general_candidates_fallback (txt : PyStr) :
    (_slug txt ≠ [] → _slug txt ∈ general_candidates txt) ∧
    (_slug txt ≠ [] →
      (tableCands (wsNorm (lowerS (stripWs txt)))).contains (_slug txt) = false →
      (general_candidates txt).getLast? = some (_slug txt)) := by
  have hj : _slug (wsNorm (lowerS (stripWs txt))) = _slug txt := by
    rw [slug_wsNorm, slug_lowerS, slug_stripWs]
  constructor
  · intro hne
    by_cases hc : (tableCands (wsNorm (lowerS (stripWs txt)))).contains (_slug txt) = true
    · have hm : _slug txt ∈ tableCands (wsNorm (lowerS (stripWs txt))) :=
        List.mem_of_elem_eq_true hc
      have he : general_candidates txt = tableCands (wsNorm (lowerS (stripWs txt))) := by
        simp [general_candidates, hj, hm]
      rw [he]
      exact hm
    · have hm : _slug txt ∉ tableCands (wsNorm (lowerS (stripWs txt))) :=
        fun h => hc (List.elem_eq_true_of_mem h)
      have he : general_candidates txt =
          tableCands (wsNorm (lowerS (stripWs txt))) ++ [_slug txt] := by
        simp [general_candidates, hj, hm, hne]
      rw [he]
      simp
  · intro hne hc
    have hm : _slug txt ∉ tableCands (wsNorm (lowerS (stripWs txt))) := by
      simpa using hc
    have he : general_candidates txt =
        tableCands (wsNorm (lowerS (stripWs txt))) ++ [_slug txt] := by
      simp [general_candidates, hj, hm, hne]
    rw [he, List.getLast?_concat]

/-- Witness for `general_candidates_fallback`: on "LA Kings" the raw slug
"lakings" is not a table candidate and is present and last. -/
theorem general_candidates_fallback_witness :
    _slug (pystr "LA Kings") ∈ general_candidates (pystr "LA Kings") ∧
    (general_candidates (pystr "LA Kings")).getLast? = some (_slug (pystr "LA Kings")) :=
  ⟨(general_candidates_fallback (pystr "LA Kings")).1 (by decide),
   (general_candidates_fallback (pystr "LA Kings")).2 (by decide) (by decide)⟩

theorem filter_map_replace (m : List (PyStr × FoundVal)) (k k' : PyStr) (v : FoundVal) :
    (m.map (fun p => if p.1 == k then (p.1, v) else p)).filter (fun p => p.1 == k') =
      (m.filter (fun p => p.1 == k')).map (fun p => if p.1 == k then (p.1, v) else p) := by
  rw [List.filter_map]
  congr 1
  apply List.filter_congr
  intro q _
  by_cases hq : q.1 = k <;> simp [Function.comp_def, hq]

theorem filter_eq_nil_of_any_false (m : List (PyStr × FoundVal)) (k : PyStr)
    (h : m.any (fun p => p.1 == k) = false) :
    m.filter (fun p => p.1 == k) = [] := by
  induction m with
  | nil => rfl
  | cons p m ih =>
    simp only [List.any_cons, Bool.or_eq_false_iff] at h
    simp [List.filter_cons, h.1, ih h.2]

theorem filter_foundInsert_self (m : List (PyStr × FoundVal)) (k : PyStr) (v : FoundVal)
    (hu : (m.filter (fun p => p.1 == k)).length ≤ 1) :
    (foundInsert m k v).filter (fun p => p.1 == k) = [(k, v)] := by
  by_cases hex : m.any (fun p => p.1 == k) = true
  · have hne : m.filter (fun p => p.1 == k) ≠ [] := by
      obtain ⟨p, hp, hpk⟩ := List.any_eq_true.mp hex
      intro hnil
      have hmem : p ∈ m.filter (fun p => p.1 == k) :=
        List.mem_filter.mpr ⟨hp, hpk⟩
      rw [hnil] at hmem
      simp at hmem
    obtain ⟨q, hq⟩ : ∃ q, m.filter (fun p => p.1 == k) = [q] := by
      cases hfl : m.filter (fun p => p.1 == k) with
      | nil => exact absurd hfl hne
      | cons q t =>
        cases t with
        | nil => exact ⟨q, rfl⟩
        | cons r t' => rw [hfl] at hu; simp at hu
    have hqk : (q.1 == k) = true := by
      have := List.mem_filter.mp (show q ∈ m.filter (fun p => p.1 == k) by simp [hq])
      exact this.2
    rw [foundInsert, if_pos hex, filter_map_replace, hq]
    simp [hqk, eq_of_beq hqk]
  · rw [foundInsert, if_neg hex, List.filter_append,
      filter_eq_nil_of_any_false m k (by simpa only [Bool.not_eq_true] using hex)]
    simp

theorem filter_foundInsert_ne (m : List (PyStr × FoundVal)) (k k' : PyStr) (v : FoundVal)
    (hne : k' ≠ k) :
    (foundInsert m k v).filter (fun p => p.1 == k') = m.filter (fun p => p.1 == k') := by
  by_cases hex : m.any (fun p => p.1 == k) = true
  · rw [foundInsert, if_pos hex, filter_map_replace]
    have : ∀ q ∈ m.filter (fun p => p.1 == k'),
        (if q.1 == k then (q.1, v) else q) = q := by
      intro q hq
      have hq' : (q.1 == k') = true := (List.mem_filter.mp hq).2
      have : q.1 = k' := eq_of_beq hq'
      rw [if_neg]
      simp [this, hne]
    rw [List.map_congr_left this, List.map_id']
  · rw [foundInsert, if_neg hex, List.filter_append]
    have : (k == k') = false := by
      simpa using fun h => hne (eq_of_beq h).symm
    simp [List.filter_cons, this]

theorem keys_unique_foldl (l : List (PyStr × FoundVal)) (k : PyStr) :
    ((l.foldl (fun m p => foundInsert m p.1 p.2) []).filter (fun p => p.1 == k)).length ≤ 1 := by
  induction l using List.reverseRecOn with
  | nil => simp
  | append_singleton l p ih =>
    rw [List.foldl_append, List.foldl_cons, List.foldl_nil]
    by_cases hk : k = p.1
    · subst hk
      rw [filter_foundInsert_self _ _ _ ih]
      simp
    · rw [filter_foundInsert_ne _ _ _ _ hk]
      exact ih

theorem foldl_insert_filter (l : List (PyStr × FoundVal)) (k : PyStr) :
    (l.foldl (fun m p => foundInsert m p.1 p.2) []).filter (fun p => p.1 == k) =
      ((lastAssign l k).map (fun v => (k, v))).toList := by
  induction l using List.reverseRecOn with
  | nil => simp [lastAssign]
  | append_singleton l p ih =>
    rw [List.foldl_append, List.foldl_cons, List.foldl_nil]
    have hl : lastAssign (l ++ [p]) k =
        if (p.1 == k) = true then some p.2 else lastAssign l k := by
      simp only [lastAssign, List.reverse_append, List.reverse_singleton,
        List.singleton_append, List.find?]
      by_cases h : (p.1 == k) = true <;> simp [h]
    by_cases h : (p.1 == k) = true
    · have hk : k = p.1 := (eq_of_beq h).symm
      subst hk
      rw [filter_foundInsert_self _ _ _ (keys_unique_foldl l _), hl]
      simp [h]
    · have hk : k ≠ p.1 := fun he => h (by simp [he])
      rw [filter_foundInsert_ne _ _ _ _ hk, hl, ih]
      simp [h]

theorem insertByKey_length (x : PyStr × FoundVal) (l : List (PyStr × FoundVal)) :
    (insertByKey x l).length = l.length + 1 := by
  induction l with
  | nil => rfl
  | cons y ys ih =>
    by_cases h : lexLt y.1 x.1 = true <;> simp [insertByKey, h, ih]

theorem sortByKey_length (l : List (PyStr × FoundVal)) :
    (sortByKey l).length = l.length := by
  induction l with
  | nil => rfl
  | cons x xs ih => simp [sortByKey, List.foldr_cons, insertByKey_length]
                    simpa [sortByKey] using ih

/-- C1 is refuted in `scrape_league`: two rows with the same display key
keep the LAST assembled entry, because the dict assignment
`found[name] = ...` overwrites; with two "a @ b" rows, the surviving event
carries the second stream URL, not the first. -/
theorem scrape_league_first_wins_refuted :
    (scrape_league (pystr "https://nflwebcast.top/") (pystr "NFLWebcast")
        (pystr "NFL.Dummy.us") (pystr "logo.png")
        [⟨pystr "a @ b", some (pystr "http://one.m3u8"), none⟩,
         ⟨pystr "a @ b", some (pystr "http://two.m3u8"), none⟩] []).map
        (fun e => e.url) = [pystr "http://two.m3u8"] ∧
    ¬ ((scrape_league (pystr "https://nflwebcast.top/") (pystr "NFLWebcast")
        (pystr "NFL.Dummy.us") (pystr "logo.png")
        [⟨pystr "a @ b", some (pystr "http://one.m3u8"), none⟩,
         ⟨pystr "a @ b", some (pystr "http://two.m3u8"), none⟩] []).map
        (fun e => e.url) = [pystr "http://one.m3u8"]) := by decide

/-- C1 (amended): in `scrape_league`, when several rows produce the same
display key the final output contains exactly one entry for that key,
namely the LAST one assembled (the dict assignment overwrites), and the
output has exactly one event per dict item; in `scrape_ppv_league` rows
are appended with no deduplication at all, one event per row whose slug
resolves and whose final probe verifies. -/
theorem scrape_league_dedup_last_wins (rows : List GameRow) (channels : List ChanRow)
    (k base_url group_px default_id default_logo : PyStr) :
    (scrape_league_found rows channels).filter (fun p => p.1 == k) =
      ((lastAssign (scrape_league_contribs rows channels) k).map
        (fun v => (k, v))).toList ∧
    (scrape_league base_url group_px default_id default_logo rows channels).length =
      (scrape_league_found rows channels).length ∧
    ∀ (verify : PyStr → Bool) (astz : SiteDT → DispDT) (allowed : Option (List PyStr))
      (nick : Bool) (site_tz : PyStr) (today : PyDate) (gname tid : PyStr)
      (prows : List PpvRow),
      (scrape_ppv_league verify astz allowed nick site_tz today base_url gname tid prows).length =
        prows.countP (fun r =>
          (scrape_ppv_row verify astz allowed nick site_tz today base_url gname tid r).isSome) := by
  refine ⟨foldl_insert_filter (scrape_league_contribs rows channels) k, ?_, ?_⟩
  · simp [scrape_league, sortByKey_length]
  · intro verify astz allowed nick site_tz today gname tid prows
    exact List.length_filterMap_eq_countP _ _

theorem tzMatchAt_in_map (s a : PyStr) (h : tzMatchAt s = some a) :
    ∃ z, dget TZ_ABBR_MAP a = some z := by
  cases s with
  | nil => simp [tzMatchAt] at h
  | cons c1 rest =>
    simp only [tzMatchAt] at h
    by_cases h1 : toUpperC c1 = 69 ∨ toUpperC c1 = 67 ∨ toUpperC c1 = 77 ∨ toUpperC c1 = 80
    · rw [if_pos h1] at h
      cases rest with
      | nil => simp at h
      | cons c2 rest2 =>
        simp only [] at h
        by_cases h2 : toUpperC c2 = 83 ∨ toUpperC c2 = 68
        · rw [if_pos h2] at h
          cases rest2 with
          | nil => simp at h
          | cons c3 rest3 =>
            simp only [] at h
            by_cases h3 : toUpperC c3 = 84 ∧ boundaryAfter rest3 = true
            · rw [if_pos h3] at h
              obtain rfl : [toUpperC c1, toUpperC c2, 84] = a := by
                simpa using h
              rcases h1 with h1 | h1 | h1 | h1 <;> rcases h2 with h2 | h2 <;>
                rw [h1, h2] <;> exact ⟨_, rfl⟩
            · rw [if_neg h3] at h
              simp at h
        · rw [if_neg h2] at h
          by_cases h4 : toUpperC c2 = 84 ∧ boundaryAfter rest2 = true
          · rw [if_pos h4] at h
            obtain rfl : [toUpperC c1, 84] = a := by simpa using h
            rcases h1 with h1 | h1 | h1 | h1 <;> rw [h1] <;> exact ⟨_, rfl⟩
          · rw [if_neg h4] at h
            simp at h
    · rw [if_neg h1] at h
      simp at h

theorem tzScanGo_in_map (b : Bool) (w a : PyStr) (h : tzScanGo b w = some a) :
    ∃ z, dget TZ_ABBR_MAP a = some z := by
  induction w generalizing b with
  | nil => simp [tzScanGo] at h
  | cons c rest ih =>
    simp only [tzScanGo] at h
    cases hm : (if !b then tzMatchAt (c :: rest) else none) with
    | some a' =>
      rw [hm] at h
      simp at h
      subst h
      cases hb : b
      · rw [hb] at hm
        simp at hm
        exact tzMatchAt_in_map _ _ hm
      · rw [hb] at hm
        simp at hm
    | none =>
      rw [hm] at h
      exact ih _ h

/-- C6: when the text contains a parsable time, the timezone abbreviation
found inside the fixed window (16 characters before the match start to 32
after it) determines the zone through `TZ_ABBR_MAP`; when the window has
no abbreviation, the site's configured default zone is used. -/
theorem parse_time_tz_window (text default_tz : PyStr) (start hh mm : Nat) (pm : Bool)
    (ht : timeScanGo 0 text = some (start, hh, mm, pm)) :
    (∀ abbr, tzScanGo false ((text.drop (start - 16)).take (start + 32 - (start - 16))) = some abbr →
       ∃ z, dget TZ_ABBR_MAP abbr = some z ∧ (parse_time_and_tz text default_tz).2.2 = z) ∧
    (tzScanGo false ((text.drop (start - 16)).take (start + 32 - (start - 16))) = none →
       (parse_time_and_tz text default_tz).2.2 = default_tz) := by
  constructor
  · intro abbr habbr
    obtain ⟨z, hz⟩ := tzScanGo_in_map _ _ _ habbr
    refine ⟨z, hz, ?_⟩
    simp [parse_time_and_tz, ht, habbr, hz]
  · intro hnone
    simp [parse_time_and_tz, ht, hnone]

/-- Witness for `parse_time_tz_window`: with default Eastern and text
containing "7:00 PM PT", Pacific is used; with no abbreviation nearby the
default is kept. -/
theorem parse_time_tz_window_witness :
    (∃ z, dget TZ_ABBR_MAP (pystr "PT") = some z ∧
      (parse_time_and_tz (pystr "Start 7:00 PM PT today") (pystr "America/New_York")).2.2 = z) ∧
    (parse_time_and_tz (pystr "Start 7:00 PM soon") (pystr "America/New_York")).2.2 =
      pystr "America/New_York" :=
  ⟨(parse_time_tz_window (pystr "Start 7:00 PM PT today") (pystr "America/New_York")
      6 7 0 true (by decide)).1 (pystr "PT") (by decide),
   (parse_time_tz_window (pystr "Start 7:00 PM soon") (pystr "America/New_York")
      6 7 0 true (by decide)).2 (by decide)⟩

set_option maxHeartbeats 2000000 in
theorem rataDie_year_gap (y m d : Nat) (hy : 1 ≤ y) :
    365 ≤ rataDie (y + 1) m d - rataDie y m d ∧
      rataDie (y + 1) m d - rataDie y m d ≤ 366 := by
  unfold rataDie
  simp only [Nat.add_sub_cancel]
  by_cases c4 : y % 4 = 0 <;> by_cases c100 : y % 100 = 0 <;> by_cases c400 : y % 400 = 0 <;>
    by_cases hm : 2 < m <;> by_cases hL1 : isLeap (y + 1) = true <;>
      simp [isLeap, c4, c100, c400, hm, hL1] <;> omega

/-- C5 is refuted at a leap-gap corner: with reference date 2024-01-03 the
parsed "Jul 2" resolves to year 2023, yet none of 2023, 2024 or 2025
places July 2 within 180 days of the reference (the distances are 185,
181 and 546 days) — so the inferred year is not one that places the date
within 180 days; no such year exists and the code's pick is not the
nearest candidate either (2024 would be 181 days away, 2023 is 185). -/
theorem guess_year_within_window_refuted :
    parse_date_title (pystr "Jul 2") ⟨2024, 1, 3⟩ = some ⟨2023, 7, 2⟩ ∧
    _guess_year 7 2 ⟨2024, 1, 3⟩ = 2023 ∧
    180 < (rataDie 2023 7 2 - rataDie 2024 1 3).natAbs ∧
    180 < (rataDie 2024 7 2 - rataDie 2024 1 3).natAbs ∧
    180 < (rataDie 2025 7 2 - rataDie 2024 1 3).natAbs := by decide

/-- C5 (amended): whenever one of {reference year − 1, reference year,
reference year + 1} places the parsed month/day within 180 days of the
reference date, the inferred year is exactly that year (such a year is
automatically unique, consecutive years being at least 365 days apart);
in the remaining corner — the same-year candidate lands 181..186 days
away across a leap-day boundary — no candidate year is within 180 days
and the code still moves one year towards the reference date. -/
theorem guess_year_within_window (m d : Nat) (today : PyDate) (g : Nat)
    (hty : 2 ≤ today.y)
    (hg : g = today.y - 1 ∨ g = today.y ∨ g = today.y + 1)
    (hw : (rataDie g m d - rataDie today.y today.m today.d).natAbs ≤ 180) :
    _guess_year m d today = g := by
  rcases hg with rfl | rfl | rfl
  · have hgap := rataDie_year_gap (today.y - 1) m d (by omega)
    rw [Nat.sub_add_cancel (by omega)] at hgap
    simp only [_guess_year]
    rw [if_neg (by omega), if_pos (by omega)]
  · simp only [_guess_year]
    rw [if_neg (by omega), if_neg (by omega)]
  · have hgap := rataDie_year_gap today.y m d (by omega)
    simp only [_guess_year]
    rw [if_pos (by omega)]

/-- Witness for `guess_year_within_window`: the spec's own example —
reference date 2025-01-05 with "Dec 28" resolves to 2024-12-28. -/
theorem guess_year_within_window_witness :
    _guess_year 12 28 ⟨2025, 1, 5⟩ = 2024 ∧
    parse_date_title (pystr "Dec 28") ⟨2025, 1, 5⟩ = some ⟨2024, 12, 28⟩ :=
  ⟨guess_year_within_window 12 28 ⟨2025, 1, 5⟩ 2024 (by decide)
      (Or.inl (by decide)) (by decide),
   by decide⟩

/-- C8 is refuted: a row can resolve both a date and a time and still
display the bare normalized name, because `TIME_RE` accepts "13:00 PM",
the AM/PM shift turns it into hour 25, and the `datetime` constructor
throws, which the `except` turns into "no instant". -/
theorem ppv_display_name_refuted :
    (parse_time_and_tz (pystr "13:00 PM") (pystr "America/New_York")).1 = some 25 ∧
    (parse_time_and_tz (pystr "13:00 PM") (pystr "America/New_York")).2.1 = some 0 ∧
    ppv_match_name (fun s => ⟨s.y, s.m, s.d, s.hh, s.mm, pystr "PST"⟩)
      (pystr "Ducks") (pystr "Kings") (some ⟨2025, 1, 5⟩)
      (parse_time_and_tz (pystr "13:00 PM") (pystr "America/New_York")).1
      (parse_time_and_tz (pystr "13:00 PM") (pystr "America/New_York")).2.1
      (parse_time_and_tz (pystr "13:00 PM") (pystr "America/New_York")).2.2 =
      pystr "Ducks @ Kings" ∧
    (pystr "Ducks @ Kings").contains 8226 = false := by decide

/-- C8 (amended): when a date and both time fields are resolved AND they
form a constructible datetime (valid date, hour at most 23, minute at most
59), the instant is converted to the display timezone by `astz` and the
display name is `"<normalized name> • <abbreviated month day> at
<hour:minute am/pm> <timezone abbreviation>"` in that zone; when either
part is missing, or the resolved fields do not form a valid datetime, the
display name is the bare normalized name. -/
theorem ppv_display_name (astz : SiteDT → DispDT) (away home : PyStr)
    (game_date : Option PyDate) (hh mm : Option Nat) (tz : PyStr) :
    ((game_date = none ∨ hh = none ∨ mm = none) →
      ppv_match_name astz away home game_date hh mm tz =
        normalize_game_name (away ++ pystr " @ " ++ home)) ∧
    (∀ gd h mi, game_date = some gd → hh = some h → mm = some mi →
      validDate gd.y gd.m gd.d = true → h ≤ 23 → mi ≤ 59 →
      ppv_match_name astz away home game_date hh mm tz =
        normalize_game_name (away ++ pystr " @ " ++ home) ++ pystr " • " ++
        MONTH_ABBR (astz ⟨gd.y, gd.m, gd.d, h, mi, tz⟩).m ++ [32] ++
        natToDec (astz ⟨gd.y, gd.m, gd.d, h, mi, tz⟩).d ++ pystr " at " ++
        natToDec (hour12 (astz ⟨gd.y, gd.m, gd.d, h, mi, tz⟩).hh) ++ [58] ++
        twoDigits (astz ⟨gd.y, gd.m, gd.d, h, mi, tz⟩).mm ++ [32] ++
        ampmS (astz ⟨gd.y, gd.m, gd.d, h, mi, tz⟩).hh ++ [32] ++
        (astz ⟨gd.y, gd.m, gd.d, h, mi, tz⟩).tzAbbr) ∧
    (∀ gd h mi, game_date = some gd → hh = some h → mm = some mi →
      ¬ (validDate gd.y gd.m gd.d = true ∧ h ≤ 23 ∧ mi ≤ 59) →
      ppv_match_name astz away home game_date hh mm tz =
        normalize_game_name (away ++ pystr " @ " ++ home)) := by
  refine ⟨?_, ?_, ?_⟩
  · intro h0
    cases game_date <;> cases hh <;> cases mm <;>
      simp [ppv_match_name, assemble_dt, format_game_datetime] <;>
      rcases h0 with h | h | h <;> simp_all
  · rintro gd h mi rfl rfl rfl hv hh23 hm59
    have hb : (validDate gd.y gd.m gd.d && decide (h ≤ 23) && decide (mi ≤ 59)) = true := by
      simp [hv, hh23, hm59]
    simp [ppv_match_name, assemble_dt, hb, format_game_datetime]
  · rintro gd h mi rfl rfl rfl hnv
    have hb : (validDate gd.y gd.m gd.d && decide (h ≤ 23) && decide (mi ≤ 59)) = false := by
      cases hv : validDate gd.y gd.m gd.d with
      | false => simp [hv]
      | true =>
        by_cases h23 : h ≤ 23
        · by_cases m59 : mi ≤ 59
          · exact absurd ⟨hv, h23, m59⟩ hnv
          · simp [m59]
        · simp [h23]
    simp [ppv_match_name, assemble_dt, hb, format_game_datetime]

/-- Witness for `ppv_display_name`: the spec's end-to-end example row,
rendered in the display zone (the abstract conversion keeps the fields
and stamps the display zone abbreviation). -/
theorem ppv_display_name_witness :
    ppv_match_name (fun s => ⟨s.y, s.m, s.d, s.hh, s.mm, pystr "PST"⟩)
      (pystr "dallas cowboys") (pystr "philadelphia eagles")
      (some ⟨2025, 1, 5⟩) (some 20) (some 20) (pystr "America/New_York") =
      pystr "Dallas Cowboys @ Philadelphia Eagles • Jan 5 at 8:20 PM PST" := by
  have h := (ppv_display_name (fun s => ⟨s.y, s.m, s.d, s.hh, s.mm, pystr "PST"⟩)
    (pystr "dallas cowboys") (pystr "philadelphia eagles")
    (some ⟨2025, 1, 5⟩) (some 20) (some 20) (pystr "America/New_York")).2.1
    ⟨2025, 1, 5⟩ 20 20 rfl rfl rfl (by decide) (by decide) (by decide)
  rw [h]
  decide

theorem toLowerC_toUpperC (c : Nat) : toLowerC (toUpperC c) = toLowerC c := by
  simp only [toLowerC, toUpperC, isUpperC, isLowerC]
  split_ifs with h1 h2 h3 <;> simp_all <;> omega

theorem toUpperC_toUpperC (c : Nat) : toUpperC (toUpperC c) = toUpperC c := by
  simp only [toUpperC, isLowerC]
  split_ifs with h1 h2 <;> simp_all <;> omega

theorem toUpperC_toLowerC (c : Nat) : toUpperC (toLowerC c) = toUpperC c := by
  simp only [toLowerC, toUpperC, isUpperC, isLowerC]
  split_ifs with h1 h2 h3 <;> simp_all <;> omega

theorem isAlphaC_toLowerC (c : Nat) : isAlphaC (toLowerC c) = isAlphaC c := by
  simp only [isAlphaC, toLowerC, isUpperC, isLowerC]
  split_ifs with h1 <;> simp_all <;> omega

theorem isAlphaC_toUpperC (c : Nat) : isAlphaC (toUpperC c) = isAlphaC c := by
  simp only [isAlphaC, toUpperC, isUpperC, isLowerC]
  split_ifs with h1 <;> simp_all <;> omega

theorem isWs_toLowerC (c : Nat) : isWs (toLowerC c) = isWs c := by
  simp only [toLowerC, isUpperC]
  split_ifs with h1
  · simp only [Bool.and_eq_true, decide_eq_true_eq] at h1
    have h2 : isWs (c + 32) = false := by simp [isWs]; omega
    have h3 : isWs c = false := by simp [isWs]; omega
    rw [h2, h3]
  · rfl

theorem isWs_toUpperC (c : Nat) : isWs (toUpperC c) = isWs c := by
  simp only [toUpperC, isLowerC]
  split_ifs with h1
  · simp only [Bool.and_eq_true, decide_eq_true_eq] at h1
    have h2 : isWs (c - 32) = false := by simp [isWs]; omega
    have h3 : isWs c = false := by simp [isWs]; omega
    rw [h2, h3]
  · rfl

theorem isLineBreak_toLowerC (c : Nat) : isLineBreak (toLowerC c) = isLineBreak c := by
  simp only [toLowerC, isUpperC]
  split_ifs with h1
  · simp only [Bool.and_eq_true, decide_eq_true_eq] at h1
    have h2 : isLineBreak (c + 32) = false := by simp [isLineBreak]; omega
    have h3 : isLineBreak c = false := by simp [isLineBreak]; omega
    rw [h2, h3]
  · rfl

theorem isLineBreak_toUpperC (c : Nat) : isLineBreak (toUpperC c) = isLineBreak c := by
  simp only [toUpperC, isLowerC]
  split_ifs with h1
  · simp only [Bool.and_eq_true, decide_eq_true_eq] at h1
    have h2 : isLineBreak (c - 32) = false := by simp [isLineBreak]; omega
    have h3 : isLineBreak c = false := by simp [isLineBreak]; omega
    rw [h2, h3]
  · rfl

theorem titleGo_idem (b : Bool) (s : PyStr) : titleGo b (titleGo b s) = titleGo b s := by
  induction s generalizing b with
  | nil => rfl
  | cons c rest ih =>
    by_cases ha : isAlphaC c = true
    · cases b with
      | false =>
        simp only [titleGo, ha, if_true, if_pos, Bool.false_eq_true, if_false, if_neg,
          isAlphaC_toUpperC, toUpperC_toUpperC, ih true]
      | true =>
        simp only [titleGo, ha, if_true, if_pos, if_false, if_neg,
          isAlphaC_toLowerC, toLowerC_toLowerC, ih true]
    · simp only [titleGo, ha, Bool.false_eq_true, if_false, if_neg, ih false]

theorem titleGo_map_toLowerC (b : Bool) (s : PyStr) :
    (titleGo b s).map toLowerC = s.map toLowerC := by
  induction s generalizing b with
  | nil => rfl
  | cons c rest ih =>
    by_cases ha : isAlphaC c = true
    · cases b <;>
        simp [titleGo, ha, toLowerC_toUpperC, toLowerC_toLowerC, ih]
    · simp [titleGo, ha, ih]

theorem titleGo_map_isWs (b : Bool) (s : PyStr) :
    (titleGo b s).map isWs = s.map isWs := by
  induction s generalizing b with
  | nil => rfl
  | cons c rest ih =>
    by_cases ha : isAlphaC c = true
    · cases b <;> simp [titleGo, ha, isWs_toUpperC, isWs_toLowerC, ih]
    · simp [titleGo, ha, ih]

theorem titleGo_length (b : Bool) (s : PyStr) : (titleGo b s).length = s.length := by
  have h := titleGo_map_isWs b s
  have := congrArg List.length h
  simpa using this

theorem titleGo_noLB (b : Bool) (s : PyStr) (h : ∀ c ∈ s, isLineBreak c = false) :
    ∀ c ∈ titleGo b s, isLineBreak c = false := by
  induction s generalizing b with
  | nil => simp [titleGo]
  | cons c rest ih =>
    intro x hx
    by_cases ha : isAlphaC c = true
    · rw [titleGo, if_pos ha] at hx
      rcases List.mem_cons.mp hx with rfl | hx'
      · cases b <;>
          simp [isLineBreak_toUpperC, isLineBreak_toLowerC, h c (by simp)]
      · exact ih true (fun d hd => h d (by simp [hd])) x hx'
    · rw [titleGo, if_neg ha] at hx
      rcases List.mem_cons.mp hx with rfl | hx'
      · exact h x (by simp)
      · exact ih false (fun d hd => h d (by simp [hd])) x hx'

theorem titleGo_no64 (b : Bool) (s : PyStr) (h : ∀ c ∈ s, c ≠ 64) :
    ∀ c ∈ titleGo b s, c ≠ 64 := by
  have h64 : ∀ d : Nat, isAlphaC d = true → toLowerC d ≠ 64 ∧ toUpperC d ≠ 64 := by
    intro d hd
    simp only [isAlphaC, isUpperC, isLowerC, Bool.or_eq_true, Bool.and_eq_true,
      decide_eq_true_eq] at hd
    simp only [toLowerC, toUpperC, isUpperC, isLowerC]
    constructor <;> split_ifs <;> simp_all <;> omega
  induction s generalizing b with
  | nil => simp [titleGo]
  | cons c rest ih =>
    intro x hx
    by_cases ha : isAlphaC c = true
    · rw [titleGo, if_pos ha] at hx
      rcases List.mem_cons.mp hx with rfl | hx'
      · cases b with
        | true => simpa using (h64 c ha).1
        | false => simpa using (h64 c ha).2
      · exact ih true (fun d hd => h d (by simp [hd])) x hx'
    · rw [titleGo, if_neg ha] at hx
      rcases List.mem_cons.mp hx with rfl | hx'
      · exact h x (by simp)
      · exact ih false (fun d hd => h d (by simp [hd])) x hx'

theorem dropWhile_length_le (p : Nat → Bool) (s : PyStr) :
    (s.dropWhile p).length ≤ s.length := by
  induction s with
  | nil => simp
  | cons c rest ih =>
    by_cases h : p c = true <;> simp [List.dropWhile_cons, h] <;> omega

theorem dropWhile_length_eq (p : Nat → Bool) (s : PyStr)
    (h : (s.dropWhile p).length = s.length) : s.dropWhile p = s := by
  conv_rhs => rw [← List.takeWhile_append_dropWhile p s]
  have hlen := congrArg List.length (List.takeWhile_append_dropWhile p s)
  simp only [List.length_append] at hlen
  have : (s.takeWhile p).length = 0 := by omega
  rw [List.length_eq_zero.mp this]
  simp

theorem head_dropWhile_false (p : Nat → Bool) (s : PyStr) (c : Nat)
    (h : (s.dropWhile p).head? = some c) : p c = false := by
  induction s with
  | nil => simp at h
  | cons d rest ih =>
    by_cases hd : p d = true
    · rw [List.dropWhile_cons, if_pos hd] at h
      exact ih h
    · rw [List.dropWhile_cons, if_neg hd] at h
      simp only [List.head?_cons, Option.some.injEq] at h
      subst h
      simpa using hd

theorem lstrip_eq_self_of_head (s : PyStr)
    (h : ∀ c, s.head? = some c → isWs c = false) : lstrip s = s := by
  cases s with
  | nil => rfl
  | cons c rest =>
    rw [lstrip, List.dropWhile_cons, if_neg]
    simp [h c rfl]

theorem rstrip_eq_self_of_last (s : PyStr)
    (h : ∀ c, s.getLast? = some c → isWs c = false) : rstrip s = s := by
  have h2 : List.dropWhile isWs s.reverse = s.reverse := by
    have h3 := lstrip_eq_self_of_head s.reverse
      (fun c hc => h c (by rwa [List.head?_reverse] at hc))
    simpa [lstrip] using h3
  rw [rstrip, h2, List.reverse_reverse]

theorem head_lstrip (s : PyStr) (c : Nat) (h : (lstrip s).head? = some c) :
    isWs c = false :=
  head_dropWhile_false isWs s c h

theorem rstrip_decomp (s : PyStr) :
    s = rstrip s ++ (s.reverse.takeWhile isWs).reverse ∧
      ∀ c ∈ (s.reverse.takeWhile isWs).reverse, isWs c = true := by
  constructor
  · rw [rstrip, ← List.reverse_append, ← List.takeWhile_append_dropWhile isWs s.reverse]
    simp
  · intro c hc
    exact List.mem_takeWhile_imp (List.mem_reverse.mp hc)

theorem last_rstrip (s : PyStr) (c : Nat) (h : (rstrip s).getLast? = some c) :
    isWs c = false := by
  rw [rstrip, List.getLast?_reverse] at h
  exact head_dropWhile_false isWs s.reverse c h

theorem head_rstrip (s : PyStr) (c : Nat) (h : (rstrip s).head? = some c) :
    s.head? = some c := by
  obtain ⟨hdec, -⟩ := rstrip_decomp s
  have h2 := congrArg List.head? hdec
  rw [List.head?_append, h] at h2
  simpa using h2

theorem stripWs_head (s : PyStr) (c : Nat) (h : (stripWs s).head? = some c) :
    isWs c = false :=
  head_lstrip s c (head_rstrip (lstrip s) c h)

theorem stripWs_last (s : PyStr) (c : Nat) (h : (stripWs s).getLast? = some c) :
    isWs c = false :=
  last_rstrip (lstrip s) c h

theorem stripWs_eq_self (s : PyStr)
    (hh : ∀ c, s.head? = some c → isWs c = false)
    (hl : ∀ c, s.getLast? = some c → isWs c = false) : stripWs s = s := by
  rw [stripWs, lstrip_eq_self_of_head s hh, rstrip_eq_self_of_last s hl]

theorem stripWs_stripWs (s : PyStr) : stripWs (stripWs s) = stripWs s :=
  stripWs_eq_self (stripWs s) (stripWs_head s) (stripWs_last s)

theorem stripWs_titleGo_stripWs (b : Bool) (s : PyStr) :
    stripWs (titleGo b (stripWs s)) = titleGo b (stripWs s) := by
  apply stripWs_eq_self
  · intro c hc
    have hm := titleGo_map_isWs b (stripWs s)
    have h1 : ((titleGo b (stripWs s)).map isWs).head? = some (isWs c) := by
      rw [List.head?_map, hc]
      rfl
    rw [hm, List.head?_map] at h1
    cases ho : (stripWs s).head? with
    | none => rw [ho] at h1; exact absurd h1 (by simp)
    | some d =>
      rw [ho] at h1
      have h2 : isWs d = isWs c := by simpa using h1
      rw [← h2]
      exact stripWs_head s d ho
  · intro c hc
    have hm := titleGo_map_isWs b (stripWs s)
    have h1 : ((titleGo b (stripWs s)).map isWs).getLast? = some (isWs c) := by
      rw [List.getLast?_map, hc]
      rfl
    rw [hm, List.getLast?_map] at h1
    cases ho : (stripWs s).getLast? with
    | none => rw [ho] at h1; exact absurd h1 (by simp)
    | some d =>
      rw [ho] at h1
      have h2 : isWs d = isWs c := by simpa using h1
      rw [← h2]
      exact stripWs_last s d ho

theorem pySplitGo_some (w : PyStr) (s : PyStr) :
    pySplitGo (some w) s =
      (w.reverse ++ s.takeWhile (fun x => !isWs x)) ::
        pySplit (s.dropWhile (fun x => !isWs x)) := by
  induction s generalizing w with
  | nil => simp [pySplitGo, pySplit]
  | cons c rest ih =>
    cases hb : isWs c with
    | true =>
      have h1 : pySplit (c :: rest) = pySplit rest := by
        simp [pySplit, pySplitGo, hb]
      simp [pySplitGo, hb, List.takeWhile_cons, List.dropWhile_cons, h1, pySplit]
    | false =>
      rw [show pySplitGo (some w) (c :: rest) = pySplitGo (some (c :: w)) rest by
        simp [pySplitGo, hb]]
      rw [ih (c :: w)]
      simp [List.takeWhile_cons, List.dropWhile_cons, hb]

theorem pySplit_cons_ws (c : Nat) (rest : PyStr) (h : isWs c = true) :
    pySplit (c :: rest) = pySplit rest := by
  simp [pySplit, pySplitGo, h]

theorem pySplit_cons_nws (c : Nat) (rest : PyStr) (h : isWs c = false) :
    pySplit (c :: rest) =
      (c :: rest.takeWhile (fun x => !isWs x)) ::
        pySplit (rest.dropWhile (fun x => !isWs x)) := by
  rw [show pySplit (c :: rest) = pySplitGo (some [c]) rest by simp [pySplit, pySplitGo, h]]
  rw [pySplitGo_some]
  simp

theorem pySplitGo_words (s : PyStr) (acc : Option PyStr)
    (hacc : ∀ u, acc = some u → u ≠ [] ∧ ∀ c ∈ u, isWs c = false) :
    ∀ w ∈ pySplitGo acc s, w ≠ [] ∧ ∀ c ∈ w, isWs c = false := by
  induction s generalizing acc with
  | nil =>
    cases acc with
    | none => simp [pySplitGo]
    | some u =>
      intro w hw
      simp only [pySplitGo, List.mem_singleton] at hw
      subst hw
      obtain ⟨h1, h2⟩ := hacc u rfl
      exact ⟨by simpa using h1, fun c hc => h2 c (by simpa using hc)⟩
  | cons c rest ih =>
    cases hb : isWs c with
    | true =>
      cases acc with
      | none =>
        rw [show pySplitGo none (c :: rest) = pySplitGo none rest by simp [pySplitGo, hb]]
        exact ih none (by simp)
      | some u =>
        rw [show pySplitGo (some u) (c :: rest) = u.reverse :: pySplitGo none rest by
          simp [pySplitGo, hb]]
        intro w hw
        rcases List.mem_cons.mp hw with rfl | hw'
        · obtain ⟨h1, h2⟩ := hacc u rfl
          exact ⟨by simpa using h1, fun d hd => h2 d (by simpa using hd)⟩
        · exact ih none (by simp) w hw'
    | false =>
      cases acc with
      | none =>
        rw [show pySplitGo none (c :: rest) = pySplitGo (some [c]) rest by
          simp [pySplitGo, hb]]
        refine ih (some [c]) ?_
        rintro u h
        simp only [Option.some.injEq] at h
        subst h
        exact ⟨by simp, by intro d hd; simp at hd; subst hd; exact hb⟩
      | some u =>
        rw [show pySplitGo (some u) (c :: rest) = pySplitGo (some (c :: u)) rest by
          simp [pySplitGo, hb]]
        refine ih (some (c :: u)) ?_
        rintro u' h
        simp only [Option.some.injEq] at h
        subst h
        refine ⟨by simp, ?_⟩
        intro d hd
        rcases List.mem_cons.mp hd with rfl | hd'
        · exact hb
        · exact (hacc u rfl).2 d hd'

theorem pySplit_words (s : PyStr) :
    ∀ w ∈ pySplit s, w ≠ [] ∧ ∀ c ∈ w, isWs c = false :=
  pySplitGo_words s none (by simp)

theorem mem_pySplitGo (acc : Option PyStr) (s : PyStr) (w : PyStr) (c : Nat)
    (hw : w ∈ pySplitGo acc s) (hc : c ∈ w) :
    (∃ u, acc = some u ∧ c ∈ u) ∨ c ∈ s := by
  induction s generalizing acc with
  | nil =>
    cases acc with
    | none => simp [pySplitGo] at hw
    | some u =>
      simp [pySplitGo] at hw
      subst hw
      exact Or.inl ⟨u, rfl, by simpa using hc⟩
  | cons d rest ih =>
    cases hb : isWs d with
    | true =>
      cases acc with
      | none =>
        rw [show pySplitGo none (d :: rest) = pySplitGo none rest by simp [pySplitGo, hb]] at hw
        rcases ih none hw with ⟨u, hu, _⟩ | h
        · simp at hu
        · exact Or.inr (by simp [h])
      | some u =>
        rw [show pySplitGo (some u) (d :: rest) = u.reverse :: pySplitGo none rest by
          simp [pySplitGo, hb]] at hw
        rcases List.mem_cons.mp hw with rfl | hw'
        · exact Or.inl ⟨u, rfl, by simpa using hc⟩
        · rcases ih none hw' with ⟨u', hu', _⟩ | h
          · simp at hu'
          · exact Or.inr (by simp [h])
    | false =>
      cases acc with
      | none =>
        rw [show pySplitGo none (d :: rest) = pySplitGo (some [d]) rest by
          simp [pySplitGo, hb]] at hw
        rcases ih (some [d]) hw with ⟨u, hu, hcu⟩ | h
        · simp only [Option.some.injEq] at hu
          subst hu
          simp at hcu
          exact Or.inr (by simp [hcu])
        · exact Or.inr (by simp [h])
      | some u =>
        rw [show pySplitGo (some u) (d :: rest) = pySplitGo (some (d :: u)) rest by
          simp [pySplitGo, hb]] at hw
        rcases ih (some (d :: u)) hw with ⟨u', hu', hcu⟩ | h
        · simp only [Option.some.injEq] at hu'
          subst hu'
          rcases List.mem_cons.mp hcu with rfl | hcu'
          · exact Or.inr (by simp)
          · exact Or.inl ⟨u, rfl, hcu'⟩
        · exact Or.inr (by simp [h])

theorem mem_pySplit_sub (s : PyStr) (w : PyStr) (c : Nat)
    (hw : w ∈ pySplit s) (hc : c ∈ w) : c ∈ s := by
  rcases mem_pySplitGo none s w c hw hc with ⟨u, hu, _⟩ | h
  · simp at hu
  · exact h

theorem mem_joinWith_space (W : List PyStr) (c : Nat) (hc : c ∈ joinWith [32] W) :
    c = 32 ∨ ∃ w ∈ W, c ∈ w := by
  induction W with
  | nil => simp [joinWith] at hc
  | cons x rest ih =>
    cases rest with
    | nil =>
      simp only [joinWith] at hc
      exact Or.inr ⟨x, by simp, hc⟩
    | cons y t =>
      rw [show joinWith [32] (x :: y :: t) = x ++ [32] ++ joinWith [32] (y :: t) from rfl] at hc
      rcases List.mem_append.mp hc with h1 | h2
      · rcases List.mem_append.mp h1 with h3 | h4
        · exact Or.inr ⟨x, by simp, h3⟩
        · simp at h4
          exact Or.inl h4
      · rcases ih h2 with h5 | ⟨w, hw, hcw⟩
        · exact Or.inl h5
        · exact Or.inr ⟨w, by simp [hw], hcw⟩

theorem takeWhile_all_append (p : Nat → Bool) (a b : PyStr)
    (h : ∀ c ∈ a, p c = true) : (a ++ b).takeWhile p = a ++ b.takeWhile p := by
  induction a with
  | nil => simp
  | cons c t ih =>
    simp only [List.cons_append, List.takeWhile_cons, h c (by simp), if_pos, if_true]
    rw [ih (fun d hd => h d (by simp [hd]))]

theorem dropWhile_all_append (p : Nat → Bool) (a b : PyStr)
    (h : ∀ c ∈ a, p c = true) : (a ++ b).dropWhile p = b.dropWhile p := by
  induction a with
  | nil => simp
  | cons c t ih =>
    simp only [List.cons_append, List.dropWhile_cons, h c (by simp), if_pos, if_true]
    exact ih (fun d hd => h d (by simp [hd]))

theorem pySplit_word_append (x z : PyStr) (hx : x ≠ [])
    (hnw : ∀ c ∈ x, isWs c = false) :
    pySplit (x ++ 32 :: z) = x :: pySplit z := by
  cases x with
  | nil => exact absurd rfl hx
  | cons c t =>
    rw [List.cons_append, pySplit_cons_nws c (t ++ 32 :: z) (hnw c (by simp))]
    rw [takeWhile_all_append _ t (32 :: z)
      (fun d hd => by simp [hnw d (by simp [hd])])]
    rw [dropWhile_all_append _ t (32 :: z)
      (fun d hd => by simp [hnw d (by simp [hd])])]
    rw [show (32 :: z).takeWhile (fun x => !isWs x) = [] by simp [List.takeWhile_cons, isWs]]
    rw [show (32 :: z).dropWhile (fun x => !isWs x) = 32 :: z by simp [List.dropWhile_cons, isWs]]
    rw [pySplit_cons_ws 32 z (by simp [isWs])]
    simp

theorem pySplit_single_word (x : PyStr) (hx : x ≠ [])
    (hnw : ∀ c ∈ x, isWs c = false) : pySplit x = [x] := by
  cases x with
  | nil => exact absurd rfl hx
  | cons c t =>
    rw [pySplit_cons_nws c t (hnw c (by simp))]
    rw [show t.takeWhile (fun x => !isWs x) = t from
      List.takeWhile_eq_self_iff.mpr (fun d hd => by simp [hnw d (by simp [hd])])]
    rw [show t.dropWhile (fun x => !isWs x) = [] from
      List.dropWhile_eq_nil_iff.mpr (fun d hd => by simp [hnw d (by simp [hd])])]
    simp [pySplit, pySplitGo]

theorem pySplit_joinWith (W : List PyStr)
    (h : ∀ w ∈ W, w ≠ [] ∧ ∀ c ∈ w, isWs c = false) :
    pySplit (joinWith [32] W) = W := by
  induction W with
  | nil => simp [joinWith, pySplit, pySplitGo]
  | cons x rest ih =>
    cases rest with
    | nil =>
      simp only [joinWith]
      exact pySplit_single_word x (h x (by simp)).1 (h x (by simp)).2
    | cons y t =>
      rw [show joinWith [32] (x :: y :: t) = x ++ 32 :: joinWith [32] (y :: t) by
        simp [joinWith]]
      rw [pySplit_word_append x _ (h x (by simp)).1 (h x (by simp)).2]
      rw [ih (fun w hw => h w (by simp [hw]))]

theorem titleGo_append_space (b : Bool) (u v : PyStr) :
    titleGo b (u ++ 32 :: v) = titleGo b u ++ 32 :: titleGo false v := by
  induction u generalizing b with
  | nil => simp [titleGo, isAlphaC, isUpperC, isLowerC]
  | cons c t ih =>
    by_cases ha : isAlphaC c = true <;>
      simp [titleGo, ha, ih true, ih false]

theorem titleGo_joinWith (W : List PyStr) :
    titleGo false (joinWith [32] W) = joinWith [32] (W.map (titleGo false)) := by
  induction W with
  | nil => rfl
  | cons x rest ih =>
    cases rest with
    | nil => simp [joinWith]
    | cons y t =>
      rw [show joinWith [32] (x :: y :: t) = x ++ 32 :: joinWith [32] (y :: t) by
        simp [joinWith]]
      rw [titleGo_append_space false x _, ih]
      rw [show joinWith [32] ((x :: y :: t).map (titleGo false)) =
        titleGo false x ++ 32 :: joinWith [32] ((y :: t).map (titleGo false)) by
          simp [joinWith]]

theorem joinWith_head (W : List PyStr)
    (h : ∀ w ∈ W, w ≠ [] ∧ ∀ c ∈ w, isWs c = false) :
    ∀ c, (joinWith [32] W).head? = some c → isWs c = false := by
  induction W with
  | nil => simp [joinWith]
  | cons x rest ih =>
    intro c hc
    cases rest with
    | nil =>
      simp only [joinWith] at hc
      exact (h x (by simp)).2 c (List.mem_of_mem_head? (by simp [hc]))
    | cons y t =>
      rw [show joinWith [32] (x :: y :: t) = x ++ 32 :: joinWith [32] (y :: t) by
        simp [joinWith]] at hc
      rw [List.head?_append] at hc
      cases hx : x.head? with
      | none =>
        exact absurd (List.head?_eq_none_iff.mp hx) (h x (by simp)).1
      | some d =>
        rw [hx] at hc
        have hdc : d = c := by simpa [Option.or] using hc
        subst hdc
        exact (h x (by simp)).2 d (List.mem_of_mem_head? (by simp [hx]))

theorem joinWith_ne_nil (W : List PyStr) (hW : W ≠ []) (h : ∀ w ∈ W, w ≠ []) :
    joinWith [32] W ≠ [] := by
  cases W with
  | nil => exact absurd rfl hW
  | cons x rest =>
    cases rest with
    | nil => simpa [joinWith] using h x (by simp)
    | cons y t =>
      rw [show joinWith [32] (x :: y :: t) = x ++ 32 :: joinWith [32] (y :: t) by
        simp [joinWith]]
      simp

theorem joinWith_last (W : List PyStr)
    (h : ∀ w ∈ W, w ≠ [] ∧ ∀ c ∈ w, isWs c = false) :
    ∀ c, (joinWith [32] W).getLast? = some c → isWs c = false := by
  induction W with
  | nil => simp [joinWith]
  | cons x rest ih =>
    intro c hc
    cases rest with
    | nil =>
      simp only [joinWith] at hc
      exact (h x (by simp)).2 c (List.mem_of_getLast?_eq_some hc)
    | cons y t =>
      have hJne : joinWith [32] (y :: t) ≠ [] :=
        joinWith_ne_nil _ (by simp) (fun w hw => (h w (by simp [hw])).1)
      rw [show joinWith [32] (x :: y :: t) = x ++ 32 :: joinWith [32] (y :: t) by
        simp [joinWith], List.getLast?_append] at hc
      cases hJ : joinWith [32] (y :: t) with
      | nil => exact absurd hJ hJne
      | cons e t2 =>
        rw [hJ, List.getLast?_cons_cons] at hc
        cases hL : (e :: t2).getLast? with
        | none => rw [List.getLast?_eq_none_iff] at hL; simp at hL
        | some d =>
          rw [hL] at hc
          have hdc : d = c := by simpa [Option.or] using hc
          subst hdc
          exact ih (fun w hw => h w (by simp [hw])) d (by rw [hJ, hL])

theorem isWordC_of_isLowerC (c : Nat) (h : isLowerC c = true) : isWordC c = true := by
  simp [isWordC, isAlphaC, h]

theorem isLowerC_eq_false_of_not_word (c : Nat) (h : isWordC c = false) :
    isLowerC c = false := by
  simp only [isWordC, isAlphaC, Bool.or_eq_false_iff] at h
  exact h.1.1.2

theorem isWordC_of_ws (c : Nat) (h : isWs c = true) : isWordC c = false := by
  have hc : c = 32 ∨ c = 9 ∨ c = 10 ∨ c = 11 ∨ c = 12 ∨ c = 13 ∨ c = 28 ∨ c = 29 ∨
      c = 30 ∨ c = 133 ∨ c = 160 ∨ c = 8232 ∨ c = 8233 := by
    simp only [isWs, Bool.or_eq_true, decide_eq_true_eq] at h
    tauto
  rcases hc with rfl|rfl|rfl|rfl|rfl|rfl|rfl|rfl|rfl|rfl|rfl|rfl|rfl <;> decide

theorem startsWith_length (p u : PyStr) (h : startsWithL p u = true) :
    p.length ≤ u.length := by
  induction p generalizing u with
  | nil => simp
  | cons a p' ih =>
    cases u with
    | nil => simp [startsWithL] at h
    | cons b u' =>
      simp only [startsWithL, Bool.and_eq_true] at h
      have := ih u' h.2
      simp only [List.length_cons]
      omega

theorem startsWith_append_ext (p u v : PyStr) (h : startsWithL p u = true) :
    startsWithL p (u ++ v) = true := by
  induction p generalizing u with
  | nil => simp [startsWithL]
  | cons a p' ih =>
    cases u with
    | nil => simp [startsWithL] at h
    | cons b u' =>
      simp only [startsWithL, Bool.and_eq_true] at h
      simp only [List.cons_append, startsWithL, Bool.and_eq_true]
      exact ⟨h.1, ih u' h.2⟩

theorem startsWith_append_nonword (p u v : PyStr)
    (hp : ∀ c ∈ p, isLowerC c = true)
    (hv : ∀ c, v.head? = some c → isWordC c = false) :
    startsWithL p (u ++ v) = startsWithL p u := by
  induction p generalizing u with
  | nil => simp [startsWithL]
  | cons a p' ih =>
    cases u with
    | nil =>
      simp only [List.nil_append]
      cases v with
      | nil => rfl
      | cons c v' =>
        have hcw : isWordC c = false := hv c rfl
        have haw : isWordC a = true := isWordC_of_isLowerC a (hp a (by simp))
        simp only [startsWithL, Bool.and_eq_true]
        have : (a == c) = false := by
          by_cases hac : a = c
          · subst hac; rw [haw] at hcw; simp at hcw
          · simpa using hac
        simp [this]
    | cons b u' =>
      simp only [List.cons_append, startsWithL, List.append_eq]
      rw [ih u' (fun d hd => hp d (by simp [hd]))]

theorem monthPre_lengths : ∀ p ∈ monthPre, p.length = 3 := by decide

theorem monthPre_lower : ∀ p ∈ monthPre, ∀ c ∈ p, isLowerC c = true := by decide

theorem any_congr_local (l : List PyStr) (p q : PyStr → Bool)
    (h : ∀ a ∈ l, p a = q a) : l.any p = l.any q := by
  induction l with
  | nil => rfl
  | cons x t ih =>
    simp only [List.any_cons, h x (by simp)]
    rw [ih (fun a ha => h a (by simp [ha]))]

theorem monthAt_append_nonword (u v : PyStr)
    (hv : ∀ c, v.head? = some c → isWordC c = false) :
    monthAt (u ++ v) = monthAt u := by
  have hany : monthPre.any (fun p => startsWithL p (u ++ v)) =
      monthPre.any (fun p => startsWithL p u) :=
    any_congr_local _ _ _ (fun p hp =>
      startsWith_append_nonword p u v (monthPre_lower p hp) hv)
  unfold monthAt
  rw [hany]
  cases hA : monthPre.any (fun p => startsWithL p u) with
  | false => simp
  | true =>
    simp only [Bool.true_and]
    obtain ⟨p, hp, hps⟩ := List.any_eq_true.mp hA
    have hlen : 3 ≤ u.length := by
      have h1 := startsWith_length p u hps
      have h2 := monthPre_lengths p hp
      omega
    rw [List.drop_append_of_le_length hlen, List.dropWhile_append]
    cases he : ((u.drop 3).dropWhile isLowerC).isEmpty with
    | true =>
      simp only [if_true, if_pos]
      rw [List.isEmpty_iff] at he
      rw [he]
      cases v with
      | nil => rfl
      | cons c v' =>
        have hcw : isWordC c = false := hv c rfl
        have hcl : isLowerC c = false := isLowerC_eq_false_of_not_word c hcw
        rw [List.dropWhile_cons, if_neg (by simp [hcl])]
        simp [hcw]
    | false =>
      simp only [Bool.false_eq_true, if_false, if_neg]
      cases hr : (u.drop 3).dropWhile isLowerC with
      | nil => rw [hr] at he; simp at he
      | cons c t => simp

theorem dropWhile_ne_nil_of_last (p : Nat → Bool) (x : PyStr) (hx : x ≠ [])
    (h : ∀ c, x.getLast? = some c → p c = false) : x.dropWhile p ≠ [] := by
  intro hnil
  have hall := List.dropWhile_eq_nil_iff.mp hnil
  cases hlast : x.getLast? with
  | none => exact hx (List.getLast?_eq_none_iff.mp hlast)
  | some c =>
    have := hall c (List.mem_of_getLast?_eq_some hlast)
    rw [h c hlast] at this
    simp at this

theorem monthAt_extend_lastNonWord (u v : PyStr) (hne : u ≠ [])
    (hlast : ∀ c, u.getLast? = some c → isWordC c = false)
    (hm : monthAt u = true) : monthAt (u ++ v) = true := by
  unfold monthAt at hm ⊢
  simp only [Bool.and_eq_true] at hm
  obtain ⟨hA, hB⟩ := hm
  obtain ⟨p, hp, hps⟩ := List.any_eq_true.mp hA
  have hlen : 3 ≤ u.length := by
    have h1 := startsWith_length p u hps
    have h2 := monthPre_lengths p hp
    omega
  have hA2 : monthPre.any (fun q => startsWithL q (u ++ v)) = true :=
    List.any_eq_true.mpr ⟨p, hp, startsWith_append_ext p u v hps⟩
  rw [hA2, Bool.true_and]
  have hstartsEq : ∀ (p u : PyStr), startsWithL p u = true → p.length = u.length → p = u := by
    intro p
    induction p with
    | nil =>
      intro u _ hlenu
      cases u with
      | nil => rfl
      | cons b u' => simp at hlenu
    | cons a p' ih =>
      intro u hs hlenu
      cases u with
      | nil => simp [startsWithL] at hs
      | cons b u' =>
        simp only [startsWithL, Bool.and_eq_true, beq_iff_eq] at hs
        simp only [List.length_cons, Nat.add_right_cancel_iff] at hlenu
        rw [hs.1, ih u' hs.2 hlenu]
  have hlen4 : 3 < u.length := by
    rcases Nat.lt_or_ge 3 u.length with h | h
    · exact h
    · exfalso
      have hlen3 : u.length = 3 := by omega
      have hpu : p = u := hstartsEq p u hps (by rw [hlen3, monthPre_lengths p hp])
      cases hlst : u.getLast? with
      | none => exact hne (List.getLast?_eq_none_iff.mp hlst)
      | some c =>
        have hcl : isLowerC c = true := by
          subst hpu
          exact monthPre_lower p hp c (List.mem_of_getLast?_eq_some hlst)
        have := hlast c hlst
        rw [isWordC_of_isLowerC c hcl] at this
        simp at this
  have hdne : u.drop 3 ≠ [] := by
    intro hnil
    have := congrArg List.length hnil
    simp at this
    omega
  have hdlast : ∀ c, (u.drop 3).getLast? = some c → isWordC c = false := by
    intro c hc
    apply hlast c
    conv_lhs => rw [show u = u.take 3 ++ u.drop 3 from (List.take_append_drop 3 u).symm]
    rw [List.getLast?_append, hc]
    rfl
  have hrne : (u.drop 3).dropWhile isLowerC ≠ [] :=
    dropWhile_ne_nil_of_last isLowerC (u.drop 3) hdne
      (fun c hc => isLowerC_eq_false_of_not_word c (hdlast c hc))
  rw [List.drop_append_of_le_length (by omega), List.dropWhile_append]
  cases hr : (u.drop 3).dropWhile isLowerC with
  | nil => exact absurd hr hrne
  | cons c t =>
    rw [hr] at hB
    simp only [List.isEmpty_cons, Bool.false_eq_true, if_false, if_neg]
    simpa using hB

theorem map_succ_none (o : Option Nat) (h : o.map (· + 1) = none) : o = none := by
  cases o with
  | none => rfl
  | some i => simp at h

theorem monthScanGo_cons (b : Bool) (c : Nat) (rest : PyStr) :
    monthScanGo b (c :: rest) =
      if !b && monthAt (c :: rest) then some 0
      else (monthScanGo (isWordC c) rest).map (· + 1) := rfl

theorem monthScanGo_append_ws (b : Bool) (u w : PyStr)
    (hw : ∀ c ∈ w, isWs c = true)
    (h : monthScanGo b (u ++ w) = none) : monthScanGo b u = none := by
  induction u generalizing b with
  | nil => rfl
  | cons c t ih =>
    rw [List.cons_append, monthScanGo_cons] at h
    have hveq : monthAt (c :: (t ++ w)) = monthAt (c :: t) := by
      rw [show (c :: (t ++ w) : PyStr) = (c :: t) ++ w by simp]
      apply monthAt_append_nonword
      intro d hd
      exact isWordC_of_ws d (hw d (List.mem_of_mem_head? (by simp [hd])))
    rw [hveq] at h
    rw [monthScanGo_cons]
    cases hcond : (!b && monthAt (c :: t)) with
    | true => rw [hcond] at h; simp at h
    | false =>
      rw [hcond] at h
      simp only [Bool.false_eq_true, if_false, if_neg] at h ⊢
      rw [map_succ_none _ h |> ih (isWordC c)]
      rfl

theorem monthScanGo_lstrip (s : PyStr)
    (h : monthScanGo false s = none) :
    monthScanGo false (s.dropWhile isWs) = none := by
  induction s with
  | nil => rfl
  | cons c t ih =>
    cases hb : isWs c with
    | true =>
      rw [List.dropWhile_cons, if_pos (by simp [hb])]
      apply ih
      rw [monthScanGo_cons] at h
      cases hcond : (!false && monthAt (c :: t)) with
      | true => rw [hcond] at h; simp at h
      | false =>
        rw [hcond] at h
        simp only [Bool.false_eq_true, if_false, if_neg] at h
        have h2 := map_succ_none _ h
        rwa [isWordC_of_ws c hb] at h2
    | false =>
      rw [List.dropWhile_cons, if_neg (by simp [hb])]
      exact h

theorem monthScanGo_some_zero (g : Bool) (s : PyStr)
    (h : monthScanGo g s = some 0) : g = false := by
  cases s with
  | nil => simp [monthScanGo] at h
  | cons c t =>
    rw [monthScanGo_cons] at h
    cases hcond : (!g && monthAt (c :: t)) with
    | true =>
      have := (Bool.and_eq_true _ _).mp hcond
      simpa using this.1
    | false =>
      rw [hcond] at h
      simp only [Bool.false_eq_true, if_false, if_neg] at h
      cases ho : monthScanGo (isWordC c) t with
      | none => rw [ho] at h; simp at h
      | some i => rw [ho] at h; simp at h

theorem monthScanGo_take (b : Bool) (s : PyStr) (i : Nat)
    (h : monthScanGo b s = some i) :
    monthScanGo b (s.take i) = none ∧
      ∀ c, (s.take i).getLast? = some c → isWordC c = false := by
  induction s generalizing b i with
  | nil => simp [monthScanGo] at h
  | cons c rest ih =>
    rw [monthScanGo_cons] at h
    cases hcond : (!b && monthAt (c :: rest)) with
    | true =>
      rw [hcond] at h
      simp only [if_true, if_pos, Option.some.injEq] at h
      subst h
      simp [monthScanGo]
    | false =>
      rw [hcond] at h
      simp only [Bool.false_eq_true, if_false, if_neg] at h
      cases ho : monthScanGo (isWordC c) rest with
      | none => rw [ho] at h; simp at h
      | some i' =>
        rw [ho] at h
        have h2 : i' + 1 = i := by simpa using h
        subst h2
        obtain ⟨ihscan, ihlast⟩ := ih (isWordC c) i' ho
        have hclast : ∀ d, (c :: rest.take i').getLast? = some d → isWordC d = false := by
          intro d hd
          cases ht : rest.take i' with
          | nil =>
            rw [ht] at hd
            simp only [List.getLast?_singleton, Option.some.injEq] at hd
            subst hd
            cases hi0 : i' with
            | zero =>
              rw [hi0] at ho
              exact monthScanGo_some_zero (isWordC c) rest ho
            | succ n =>
              exfalso
              rw [hi0] at ht
              cases rest with
              | nil => simp [monthScanGo] at ho
              | cons e t2 => simp at ht
          | cons e t2 =>
            rw [ht] at hd ihlast
            apply ihlast
            rwa [List.getLast?_cons_cons] at hd
        constructor
        · rw [List.take_succ_cons, monthScanGo_cons]
          have hcond2 : (!b && monthAt (c :: rest.take i')) = false := by
            cases hbv : b with
            | true => simp
            | false =>
              rw [hbv] at hcond
              simp only [Bool.not_false, Bool.true_and] at hcond
              cases hma : monthAt (c :: rest.take i') with
              | false => simp
              | true =>
                exfalso
                have hext := monthAt_extend_lastNonWord (c :: rest.take i') (rest.drop i')
                  (by simp) hclast hma
                rw [show (c :: rest.take i') ++ rest.drop i' = c :: rest by
                  simp [List.take_append_drop]] at hext
                rw [hext] at hcond
                simp at hcond
          rw [hcond2]
          simp only [Bool.false_eq_true, if_false, if_neg, ihscan]
          rfl
        · intro d hd
          rw [List.take_succ_cons] at hd
          exact hclast d hd

theorem lowerS_dropWhile_ws (s : PyStr) :
    (lowerS s).dropWhile isWs = lowerS (s.dropWhile isWs) := by
  rw [lowerS, lowerS, List.dropWhile_map]
  congr 2
  funext c
  exact isWs_toLowerC c

theorem lowerS_stripWs (s : PyStr) : lowerS (stripWs s) = stripWs (lowerS s) := by
  have hrev : ∀ x : PyStr, (lowerS x).reverse = lowerS x.reverse := by
    intro x
    simp [lowerS]
  simp only [stripWs, rstrip, lstrip]
  rw [lowerS_dropWhile_ws s, hrev, lowerS_dropWhile_ws, hrev]

theorem monthScan_stripWs_none (L : PyStr) (h : monthScanGo false L = none) :
    monthScanGo false (stripWs L) = none := by
  have h1 : monthScanGo false (lstrip L) = none := by
    simpa [lstrip] using monthScanGo_lstrip L h
  obtain ⟨hdec, hws⟩ := rstrip_decomp (lstrip L)
  rw [hdec] at h1
  exact monthScanGo_append_ws false (rstrip (lstrip L)) _ hws h1

theorem monthSub_noScan (y : PyStr) :
    monthScanGo false (lowerS (monthSub y)) = none := by
  unfold monthSub
  cases hscan : monthScan (lowerS y) with
  | none =>
    simpa [monthScan] using hscan
  | some i =>
    rw [show lowerS ((y.take i)) = (lowerS y).take i by simp [lowerS, List.map_take]]
    exact (monthScanGo_take false (lowerS y) i (by simpa [monthScan] using hscan)).1

theorem monthSub_eq_self_of_noScan (z : PyStr)
    (h : monthScanGo false (lowerS z) = none) : monthSub z = z := by
  unfold monthSub
  rw [show monthScan (lowerS z) = none by simpa [monthScan] using h]

theorem monthSub_pipeline (b0 : PyStr) :
    monthSub (pyTitle (stripWs (monthSub (stripWs b0)))) =
      pyTitle (stripWs (monthSub (stripWs b0))) := by
  apply monthSub_eq_self_of_noScan
  have h1 : monthScanGo false (lowerS (monthSub (stripWs b0))) = none :=
    monthSub_noScan (stripWs b0)
  have h2 : monthScanGo false (stripWs (lowerS (monthSub (stripWs b0)))) = none :=
    monthScan_stripWs_none _ h1
  have h3 : lowerS (pyTitle (stripWs (monthSub (stripWs b0)))) =
      stripWs (lowerS (monthSub (stripWs b0))) := by
    rw [pyTitle, show lowerS (titleGo false (stripWs (monthSub (stripWs b0)))) =
      lowerS (stripWs (monthSub (stripWs b0))) from titleGo_map_toLowerC _ _]
    exact lowerS_stripWs _
  rw [h3]
  exact h2

theorem ws_of_lineBreak (c : Nat) (h : isLineBreak c = true) : isWs c = true := by
  have hc : c = 10 ∨ c = 11 ∨ c = 12 ∨ c = 13 ∨ c = 28 ∨ c = 29 ∨ c = 30 ∨
      c = 133 ∨ c = 8232 ∨ c = 8233 := by
    simp only [isLineBreak, Bool.or_eq_true, decide_eq_true_eq] at h
    tauto
  rcases hc with rfl|rfl|rfl|rfl|rfl|rfl|rfl|rfl|rfl|rfl <;> decide

theorem splitlinesJoin_noLB (s : PyStr) :
    ∀ c ∈ splitlinesJoin s, isLineBreak c = false := by
  induction s using splitlinesJoin.induct with
  | case1 => simp [splitlinesJoin]
  | case2 c =>
    intro d hd
    simp only [splitlinesJoin, List.mem_singleton] at hd
    subst hd
    cases hlb : isLineBreak c with
    | true => simp [hlb]; decide
    | false => simp [hlb]
  | case3 c d rest hcd ih =>
    intro e he
    rw [show splitlinesJoin (c :: d :: rest) = 32 :: splitlinesJoin rest by
      simp [splitlinesJoin, hcd]] at he
    rcases List.mem_cons.mp he with rfl | he'
    · decide
    · exact ih e he'
  | case4 c d rest hcd ih =>
    intro e he
    rw [show splitlinesJoin (c :: d :: rest) =
        (if isLineBreak c then 32 else c) :: splitlinesJoin (d :: rest) by
      simp [splitlinesJoin, hcd]] at he
    rcases List.mem_cons.mp he with rfl | he'
    · cases hlb : isLineBreak c with
      | true => simp [hlb]; decide
      | false => simp [hlb]
    · exact ih e he'

theorem splitlinesJoin_eq_self (s : PyStr) (h : ∀ c ∈ s, isLineBreak c = false) :
    splitlinesJoin s = s := by
  induction s using splitlinesJoin.induct with
  | case1 => rfl
  | case2 c =>
    simp only [splitlinesJoin, h c (by simp)]
    simp
  | case3 c d rest hcd ih =>
    exfalso
    have := h c (by simp)
    rw [hcd.1] at this
    simp [isLineBreak] at this
  | case4 c d rest hcd ih =>
    rw [show splitlinesJoin (c :: d :: rest) =
        (if isLineBreak c then 32 else c) :: splitlinesJoin (d :: rest) by
      simp [splitlinesJoin, hcd]]
    rw [h c (by simp), ih (fun e he => h e (by simp [he]))]
    simp

theorem mem_lstrip (c : Nat) (s : PyStr) (h : c ∈ lstrip s) : c ∈ s :=
  (List.dropWhile_sublist isWs).mem h

theorem mem_rstrip (c : Nat) (s : PyStr) (h : c ∈ rstrip s) : c ∈ s := by
  rw [rstrip, List.mem_reverse] at h
  exact List.mem_reverse.mp ((List.dropWhile_sublist isWs).mem h)

theorem mem_stripWs (c : Nat) (s : PyStr) (h : c ∈ stripWs s) : c ∈ s :=
  mem_lstrip c s (mem_rstrip c (lstrip s) h)

theorem mem_monthSub (c : Nat) (s : PyStr) (h : c ∈ monthSub s) : c ∈ s := by
  unfold monthSub at h
  cases hscan : monthScan (lowerS s) with
  | none => rwa [hscan] at h
  | some i =>
    rw [hscan] at h
    exact (List.take_sublist i s).mem h

theorem rstrip_length_le (s : PyStr) : (rstrip s).length ≤ s.length := by
  rw [rstrip, List.length_reverse]
  have := dropWhile_length_le isWs s.reverse
  simpa using this

theorem strip_fix_parts (A : PyStr) (h : stripWs A = A) :
    lstrip A = A ∧ rstrip A = A := by
  have h1 : lstrip A = A := by
    have hle1 : (stripWs A).length ≤ (lstrip A).length := rstrip_length_le (lstrip A)
    have hle2 : (lstrip A).length ≤ A.length := dropWhile_length_le isWs A
    rw [h] at hle1
    simp only [lstrip] at hle1 hle2 ⊢
    exact dropWhile_length_eq isWs A (by omega)
  refine ⟨h1, ?_⟩
  rw [stripWs, h1] at h
  exact h

theorem lstrip_fix_head (c : Nat) (t : PyStr) (h : lstrip (c :: t) = c :: t) :
    isWs c = false := by
  cases hws : isWs c with
  | true =>
    exfalso
    rw [lstrip, List.dropWhile_cons, if_pos (by simp [hws])] at h
    have h2 := congrArg List.length h
    have h3 := dropWhile_length_le isWs t
    simp at h2
    omega
  | false => rfl

theorem rstrip_fix_rev (A : PyStr) (h : rstrip A = A) :
    A.reverse.dropWhile isWs = A.reverse := by
  have := congrArg List.reverse h
  rwa [rstrip, List.reverse_reverse] at this

theorem stripWs_append_space (A : PyStr) (h : stripWs A = A) :
    stripWs (A ++ [32]) = A := by
  cases A with
  | nil => decide
  | cons c t =>
    obtain ⟨hl, hr⟩ := strip_fix_parts _ h
    have hhead : isWs c = false := lstrip_fix_head c t hl
    rw [stripWs, lstrip, List.cons_append, List.dropWhile_cons, if_neg (by simp [hhead])]
    rw [← List.cons_append, rstrip, List.reverse_append]
    simp only [List.reverse_singleton, List.singleton_append, List.dropWhile_cons]
    rw [if_pos (by decide), rstrip_fix_rev (c :: t) hr, List.reverse_reverse]

theorem stripWs_space_cons (B : PyStr) (h : stripWs B = B) :
    stripWs (32 :: B) = B := by
  obtain ⟨hl, hr⟩ := strip_fix_parts _ h
  rw [stripWs, lstrip, List.dropWhile_cons, if_pos (by decide)]
  rw [show List.dropWhile isWs B = B from hl]
  rw [show rstrip B = B from hr]

theorem dropWhile_fix_head (p : Nat → Bool) (x : Nat) (t : PyStr)
    (h : List.dropWhile p (x :: t) = x :: t) : p x = false := by
  cases hp : p x with
  | true =>
    exfalso
    rw [List.dropWhile_cons, if_pos (by simp [hp])] at h
    have h2 := congrArg List.length h
    have h3 := dropWhile_length_le p t
    simp at h2
    omega
  | false => rfl

theorem dropWhile_append_of_fix (p : Nat → Bool) (a b : PyStr) (ha : a ≠ [])
    (h : List.dropWhile p a = a) : List.dropWhile p (a ++ b) = a ++ b := by
  cases a with
  | nil => exact absurd rfl ha
  | cons x t =>
    have hx : p x = false := dropWhile_fix_head p x t h
    rw [List.cons_append, List.dropWhile_cons, if_neg (by simp [hx])]

theorem strip_fix_head (A : PyStr) (h : stripWs A = A) :
    ∀ c, A.head? = some c → isWs c = false := by
  intro c hc
  cases A with
  | nil => simp at hc
  | cons x t =>
    obtain ⟨hl, _⟩ := strip_fix_parts _ h
    have hx := lstrip_fix_head x t hl
    simp only [List.head?_cons, Option.some.injEq] at hc
    exact hc ▸ hx

theorem rstrip_fix_last (A : PyStr) (h : rstrip A = A) :
    ∀ c, A.getLast? = some c → isWs c = false := by
  intro c hc
  have hrev := rstrip_fix_rev A h
  rw [← List.head?_reverse] at hc
  cases hA : A.reverse with
  | nil => rw [hA] at hc; simp at hc
  | cons x t =>
    rw [hA] at hc hrev
    simp only [List.head?_cons, Option.some.injEq] at hc
    have hx := dropWhile_fix_head isWs x t hrev
    exact hc ▸ hx

theorem stripWs_at_form (A B : PyStr) (hA : stripWs A = A) (hB : stripWs B = B) :
    stripWs (A ++ [32, 64, 32] ++ B) =
      (if A = [] then [] else A ++ [32]) ++ 64 :: (if B = [] then [] else 32 :: B) := by
  cases A with
  | nil =>
    cases B with
    | nil => decide
    | cons y u =>
      rw [if_pos rfl, if_neg (List.cons_ne_nil y u)]
      simp only [List.nil_append]
      have hrB : List.dropWhile isWs (y :: u).reverse = (y :: u).reverse :=
        rstrip_fix_rev (y :: u) (strip_fix_parts _ hB).2
      have hBrev : (y :: u).reverse ≠ [] := by simp
      have hl : lstrip ([32, 64, 32] ++ y :: u) = 64 :: 32 :: y :: u := by
        simp [lstrip, List.dropWhile_cons, show isWs 32 = true from by decide,
              show isWs 64 = false from by decide]
      have hr : rstrip (64 :: 32 :: y :: u) = 64 :: 32 :: y :: u := by
        rw [rstrip]
        have h1 : (64 :: 32 :: y :: u).reverse = (y :: u).reverse ++ [32, 64] := by simp
        rw [h1, dropWhile_append_of_fix isWs _ _ hBrev hrB]
        simp
      rw [stripWs, hl, hr]
  | cons x t =>
    have hheadA : isWs x = false :=
      strip_fix_head (x :: t) hA x rfl
    cases B with
    | nil =>
      rw [if_neg (List.cons_ne_nil x t), if_pos rfl]
      simp only [List.append_nil]
      have hl : lstrip ((x :: t) ++ [32, 64, 32]) = (x :: t) ++ [32, 64, 32] := by
        rw [lstrip, List.cons_append, List.dropWhile_cons, if_neg (by simp [hheadA])]
      have hr : rstrip ((x :: t) ++ [32, 64, 32]) = (x :: t) ++ [32, 64] := by
        rw [rstrip, List.reverse_append]
        have h1 : List.dropWhile isWs (([32, 64, 32] : List Nat).reverse ++ (x :: t).reverse) =
            64 :: 32 :: (x :: t).reverse := by
          simp [List.dropWhile_cons, show isWs 32 = true from by decide,
                show isWs 64 = false from by decide]
        rw [h1]
        simp
      rw [stripWs, hl, hr]
      simp
    | cons y u =>
      rw [if_neg (List.cons_ne_nil x t), if_neg (List.cons_ne_nil y u)]
      have hrB : List.dropWhile isWs (y :: u).reverse = (y :: u).reverse :=
        rstrip_fix_rev (y :: u) (strip_fix_parts _ hB).2
      have hBrev : (y :: u).reverse ≠ [] := by simp
      have hl : lstrip ((x :: t) ++ [32, 64, 32] ++ y :: u) =
          (x :: t) ++ [32, 64, 32] ++ y :: u := by
        rw [lstrip, List.append_assoc, List.cons_append, List.dropWhile_cons,
          if_neg (by simp [hheadA])]
      have hr : rstrip ((x :: t) ++ [32, 64, 32] ++ y :: u) =
          (x :: t) ++ [32, 64, 32] ++ y :: u := by
        rw [rstrip, List.reverse_append, dropWhile_append_of_fix isWs _ _ hBrev hrB]
        simp
      rw [stripWs, hl, hr]
      simp

theorem titleGo_nonws (b : Bool) (s : PyStr) (h : ∀ c ∈ s, isWs c = false) :
    ∀ c ∈ titleGo b s, isWs c = false := by
  intro c hc
  have h1 : isWs c ∈ (titleGo b s).map isWs := List.mem_map_of_mem isWs hc
  rw [titleGo_map_isWs] at h1
  rcases List.mem_map.mp h1 with ⟨d, hd, hdc⟩
  rw [← hdc]
  exact h d hd

theorem pystr_at_eq : pystr " @ " = [32, 64, 32] := by decide

theorem normalize_eq_at (s : PyStr)
    (h : (stripWs (splitlinesJoin s)).contains 64 = true) :
    normalize_game_name s =
      pyTitle (stripWs ((stripWs (splitlinesJoin s)).takeWhile (fun c => c != 64))) ++
        [32, 64, 32] ++
        pyTitle (stripWs (monthSub (stripWs
          (((stripWs (splitlinesJoin s)).dropWhile (fun c => c != 64)).tail)))) := by
  simp only [normalize_game_name]
  rw [if_pos h, pystr_at_eq]

theorem normalize_eq_noat (s : PyStr)
    (h : (stripWs (splitlinesJoin s)).contains 64 = false) :
    normalize_game_name s =
      pyTitle (joinWith [32] (pySplit (stripWs (splitlinesJoin s)))) := by
  simp only [normalize_game_name, wsNorm]
  rw [if_neg (by rw [h]; exact Bool.false_ne_true)]

theorem normalize_at_fixed (A B : PyStr)
    (hsA : stripWs A = A) (hsB : stripWs B = B)
    (htA : pyTitle A = A) (htB : pyTitle B = B)
    (hmB : monthSub B = B)
    (h64A : ∀ c ∈ A, c ≠ 64)
    (hlbA : ∀ c ∈ A, isLineBreak c = false)
    (hlbB : ∀ c ∈ B, isLineBreak c = false) :
    normalize_game_name (A ++ [32, 64, 32] ++ B) = A ++ [32, 64, 32] ++ B := by
  have hnoLB : ∀ c ∈ A ++ [32, 64, 32] ++ B, isLineBreak c = false := by
    intro c hc
    rcases List.mem_append.mp hc with h1 | h2
    · rcases List.mem_append.mp h1 with h3 | h4
      · exact hlbA c h3
      · simp only [List.mem_cons, List.not_mem_nil, or_false] at h4
        rcases h4 with rfl | rfl | rfl <;> decide
    · exact hlbB c h2
  have hsl : splitlinesJoin (A ++ [32, 64, 32] ++ B) = A ++ [32, 64, 32] ++ B :=
    splitlinesJoin_eq_self _ hnoLB
  have hstrip := stripWs_at_form A B hsA hsB
  have h64A' : ∀ c ∈ (if A = [] then ([] : PyStr) else A ++ [32]), (c != 64) = true := by
    intro c hc
    by_cases hAe : A = []
    · rw [if_pos hAe] at hc; simp at hc
    · rw [if_neg hAe] at hc
      rcases List.mem_append.mp hc with h1 | h2
      · simpa using h64A c h1
      · simp at h2; subst h2; decide
  have hcontains :
      (stripWs (splitlinesJoin (A ++ [32, 64, 32] ++ B))).contains 64 = true := by
    rw [hsl, hstrip]
    simp
  rw [normalize_eq_at _ hcontains, hsl, hstrip]
  rw [takeWhile_all_append _ _ _ h64A']
  rw [show List.takeWhile (fun c => c != 64)
      (64 :: (if B = [] then ([] : PyStr) else 32 :: B)) = [] by
    simp [List.takeWhile_cons]]
  rw [dropWhile_all_append _ _ _ h64A']
  rw [show List.dropWhile (fun c => c != 64)
      (64 :: (if B = [] then ([] : PyStr) else 32 :: B)) =
      64 :: (if B = [] then ([] : PyStr) else 32 :: B) by
    simp [List.dropWhile_cons]]
  simp only [List.tail_cons, List.append_nil]
  have hsA' : stripWs (if A = [] then ([] : PyStr) else A ++ [32]) = A := by
    by_cases hAe : A = []
    · rw [if_pos hAe, hAe]; rfl
    · rw [if_neg hAe]; exact stripWs_append_space A hsA
  have hsB' : stripWs (if B = [] then ([] : PyStr) else 32 :: B) = B := by
    by_cases hBe : B = []
    · rw [if_pos hBe, hBe]; rfl
    · rw [if_neg hBe]; exact stripWs_space_cons B hsB
  rw [hsA', htA, hsB', hmB, hsB, htB]

theorem normalize_noat_fixed (W : List PyStr)
    (hW : ∀ w ∈ W, w ≠ [] ∧ ∀ c ∈ w, isWs c = false)
    (h64 : ∀ w ∈ W, ∀ c ∈ w, c ≠ 64) :
    normalize_game_name (joinWith [32] (W.map (titleGo false))) =
      joinWith [32] (W.map (titleGo false)) := by
  have hWt : ∀ w ∈ W.map (titleGo false), w ≠ [] ∧ ∀ c ∈ w, isWs c = false := by
    intro w hw
    rcases List.mem_map.mp hw with ⟨v, hv, rfl⟩
    constructor
    · intro hnil
      have h1 := titleGo_length false v
      rw [hnil] at h1
      exact (hW v hv).1 (List.length_eq_zero.mp h1.symm)
    · exact titleGo_nonws false v (hW v hv).2
  have hnoLB : ∀ c ∈ joinWith [32] (W.map (titleGo false)), isLineBreak c = false := by
    intro c hc
    rcases mem_joinWith_space _ c hc with rfl | ⟨w, hw, hcw⟩
    · decide
    · have hnw := (hWt w hw).2 c hcw
      cases hlb : isLineBreak c with
      | false => rfl
      | true => exact absurd (ws_of_lineBreak c hlb) (by simp [hnw])
  have hsl := splitlinesJoin_eq_self _ hnoLB
  have hstrip : stripWs (joinWith [32] (W.map (titleGo false))) =
      joinWith [32] (W.map (titleGo false)) :=
    stripWs_eq_self _ (joinWith_head _ hWt) (joinWith_last _ hWt)
  have hno64 : (64 : Nat) ∉ joinWith [32] (W.map (titleGo false)) := by
    intro hc
    rcases mem_joinWith_space _ 64 hc with h32 | ⟨w, hw, hcw⟩
    · simp at h32
    · rcases List.mem_map.mp hw with ⟨v, hv, rfl⟩
      exact titleGo_no64 false v (h64 v hv) 64 hcw rfl
  have hnc : (stripWs (splitlinesJoin (joinWith [32] (W.map (titleGo false))))).contains 64 =
      false := by
    rw [hsl, hstrip]
    simp [hno64]
  rw [normalize_eq_noat _ hnc, hsl, hstrip]
  rw [pySplit_joinWith _ hWt]
  show titleGo false (joinWith [32] (W.map (titleGo false))) = _
  rw [titleGo_joinWith, List.map_map]
  have hpt : ∀ v ∈ W, (titleGo false ∘ titleGo false) v = titleGo false v := by
    intro v hv
    simp only [Function.comp_apply]
    exact titleGo_idem false v
  rw [List.map_congr_left hpt]

/-- C7: `normalize_game_name` is idempotent: feeding its output back in returns the
same string, in both the `@`-split branch and the whitespace-collapsing branch. -/
theorem normalize_game_name_idem (s : PyStr) :
    normalize_game_name (normalize_game_name s) = normalize_game_name s := by
  have hmemC : ∀ c ∈ stripWs (splitlinesJoin s), isLineBreak c = false := fun c hc =>
    splitlinesJoin_noLB s c (mem_stripWs c _ hc)
  by_cases hC : (stripWs (splitlinesJoin s)).contains 64 = true
  · rw [normalize_eq_at s hC]
    apply normalize_at_fixed
    · exact stripWs_titleGo_stripWs false _
    · exact stripWs_titleGo_stripWs false _
    · exact titleGo_idem false _
    · exact titleGo_idem false _
    · exact monthSub_pipeline _
    · apply titleGo_no64
      intro c hc
      have hc2 := mem_stripWs c _ hc
      have h3 := List.mem_takeWhile_imp hc2
      simpa using h3
    · apply titleGo_noLB
      intro c hc
      exact hmemC c ((List.takeWhile_sublist _).mem (mem_stripWs c _ hc))
    · apply titleGo_noLB
      intro c hc
      have h1 := mem_stripWs c _ hc
      have h2 := mem_monthSub c _ h1
      have h3 := mem_stripWs c _ h2
      have h4 : c ∈ (stripWs (splitlinesJoin s)).dropWhile (fun c => c != 64) :=
        (List.tail_sublist _).mem h3
      exact hmemC c ((List.dropWhile_sublist _).mem h4)
  · have hC' : (stripWs (splitlinesJoin s)).contains 64 = false := by
      cases h : (stripWs (splitlinesJoin s)).contains 64 with
      | false => rfl
      | true => exact absurd h hC
    have hno64 : (64 : Nat) ∉ stripWs (splitlinesJoin s) := by
      intro hmem
      exact hC (by simpa using hmem)
    rw [normalize_eq_noat s hC']
    have hrw : pyTitle (joinWith [32] (pySplit (stripWs (splitlinesJoin s)))) =
        joinWith [32] ((pySplit (stripWs (splitlinesJoin s))).map (titleGo false)) :=
      titleGo_joinWith _
    rw [hrw]
    apply normalize_noat_fixed
    · exact pySplit_words _
    · intro w hw c hc hceq
      subst hceq
      exact hno64 (mem_pySplit_sub _ w 64 hw hc)
